import Mathlib

/-!
StrictAliasing: the `ScratchPad` byte stack and its producer/consumer demo.

A shallow embedding of `source/scratch_pad.cpp`, followed by the block copies of
`source/blocked_reorder.cpp` and the matrix-vector toy of
`source/matrix_vector.cpp`. For the pad:

* A byte is a `Fin 256`; the object representation of a value of a trivially
  copyable type `T` is the list of its `sizeof(T)` bytes, which is all that
  `memcpy` ever looks at.
* `size_t` is 64 bits wide: the sum inside the assertion of `push` and the
  update of `m_offset` are taken modulo `2^64`.
* `assert` is modelled as enabled: a failing assertion stops the operation with
  an error and the state it was reached in.
* `int` is 32 bits wide (two's complement) and `double` is IEEE-754 binary64,
  both stored little-endian.
-/

namespace StrictAliasing

/-! ## Bytes and memory -/

/-- One `char` of storage. -/
abbrev Byte := Fin 256

/-- Number of values of `size_t` (64-bit). -/
def SIZE_T_MOD : Nat := 18446744073709551616

/-- Effect of `memcpy(buf + off, src, src.length)` on the array `buf`. -/
def memcpy_to (buf : List Byte) (off : Nat) (src : List Byte) : List Byte :=
  buf.take off ++ src ++ buf.drop (off + src.length)

/-- Bytes read by `memcpy(&value, buf + off, n)`. -/
def memcpy_from (buf : List Byte) (off : Nat) (n : Nat) : List Byte :=
  (buf.drop off).take n

/-! ## ScratchPad -/

/-- The two ways an assertion of `ScratchPad` fails. -/
inductive Error where
  | Overflow
  | Underflow
  deriving DecidableEq, Repr

/-- Data members of `ScratchPad<NUM_BYTES>`. -/
structure ScratchPad where
  m_offset : Nat
  m_buffer : List Byte
  deriving DecidableEq, Repr

/-- Class invariant of `ScratchPad<NUM_BYTES>`: the buffer has `NUM_BYTES` bytes
and the cursor lies inside it. -/
def ScratchPad.WellFormed (NUM_BYTES : Nat) (p : ScratchPad) : Prop :=
  p.m_offset ≤ NUM_BYTES ∧ p.m_buffer.length = NUM_BYTES

instance (NUM_BYTES : Nat) (p : ScratchPad) : Decidable (p.WellFormed NUM_BYTES) := by
  unfold ScratchPad.WellFormed; infer_instance

/-- `ScratchPad::push<T>(value)`; `value` is the object representation of the
argument, so `value.length` is `sizeof(T)`. Returns the outcome together with
the state the call ends in. -/
def ScratchPad.push (NUM_BYTES : Nat) (p : ScratchPad) (value : List Byte) :
    Except Error Unit × ScratchPad :=
  if (p.m_offset + value.length) % SIZE_T_MOD ≤ NUM_BYTES then
    (.ok (),
      { m_offset := (p.m_offset + value.length) % SIZE_T_MOD,
        m_buffer := memcpy_to p.m_buffer p.m_offset value })
  else
    (.error .Overflow, p)

/-- `ScratchPad::pop<T>()` with `sizeofT = sizeof(T)`; the result is the object
representation of the returned value. -/
def ScratchPad.pop (p : ScratchPad) (sizeofT : Nat) :
    Except Error (List Byte) × ScratchPad :=
  if p.m_offset ≥ sizeofT then
    let m_offset := p.m_offset - sizeofT
    (.ok (memcpy_from p.m_buffer m_offset sizeofT), { p with m_offset := m_offset })
  else
    (.error .Underflow, p)

/-- Calls `push` once for each value of `values`, first to last, stopping at the
first failing assertion. -/
def pushSeq (NUM_BYTES : Nat) : ScratchPad → List (List Byte) → Except Error Unit × ScratchPad
  | p, [] => (.ok (), p)
  | p, v :: vs =>
    match p.push NUM_BYTES v with
    | (.ok _, p1) => pushSeq NUM_BYTES p1 vs
    | (.error e, p1) => (.error e, p1)

/-- Calls `pop` once for each size of `sizes`, first to last, collecting the
returned values in call order and stopping at the first failing assertion. -/
def popSeq : ScratchPad → List Nat → Except Error (List (List Byte)) × ScratchPad
  | p, [] => (.ok [], p)
  | p, n :: ns =>
    match p.pop n with
    | (.ok v, p1) =>
      match popSeq p1 ns with
      | (.ok vs, p2) => (.ok (v :: vs), p2)
      | (.error e, p2) => (.error e, p2)
    | (.error e, p1) => (.error e, p1)

/-! ## Object representations of `int` and `double` -/

/-- The `n` little-endian bytes of `x`. -/
def le_bytes : Nat → Nat → List Byte
  | 0, _ => []
  | n + 1, x => Fin.ofNat (x % 256) :: le_bytes n (x / 256)

/-- The number whose little-endian bytes are `bs`. -/
def le_value : List Byte → Nat
  | [] => 0
  | b :: bs => b.val + 256 * le_value bs

/-- `sizeof(int)`. -/
def SIZEOF_INT : Nat := 4

/-- `sizeof(double)`. -/
def SIZEOF_DOUBLE : Nat := 8

/-- Object representation of an `int`. -/
def int_bytes (v : Int) : List Byte :=
  le_bytes SIZEOF_INT (v % 4294967296).toNat

/-- The `int` with the given object representation. -/
def int_of_bytes (bs : List Byte) : Int :=
  let u := le_value bs % 4294967296
  if u < 2147483648 then (u : Int) else (u : Int) - 4294967296

/-- A `double`, as its 64-bit pattern. -/
abbrev F64 := Fin 18446744073709551616

/-- Object representation of a `double`. -/
def double_bytes (d : F64) : List Byte :=
  le_bytes SIZEOF_DOUBLE d.val

/-- The `double` with the given object representation. -/
def double_of_bytes (bs : List Byte) : F64 :=
  Fin.ofNat (le_value bs)

/-! ## Addition of `double`

IEEE-754 binary64 addition in the default rounding mode (round to nearest, ties
to even), on bit patterns. Every finite `double` is an integer multiple of
`2^-1074`; the sum is formed exactly in that unit, as sign and magnitude, and
rounded once. -/

/-- Sign bit. -/
def f64_sign (x : Nat) : Nat := x / 9223372036854775808 % 2

/-- Biased exponent field (11 bits). -/
def f64_exp (x : Nat) : Nat := x / 4503599627370496 % 2048

/-- Fraction field (52 bits). -/
def f64_frac (x : Nat) : Nat := x % 4503599627370496

/-- Absolute value of a finite `double`, in units of `2^-1074`. -/
def f64_mag (x : Nat) : Nat :=
  if f64_exp x = 0 then f64_frac x
  else (4503599627370496 + f64_frac x) * 2 ^ (f64_exp x - 1)

/-- Position of the leading one bit of `m`, searched from the `2^j` steps
down, starting at `acc`. -/
def f64_log2_from : Nat → Nat → Nat → Nat
  | 0, acc, _ => acc
  | j + 1, acc, m =>
    if m ≥ 2 ^ (acc + 2 ^ j) then f64_log2_from j (acc + 2 ^ j) m
    else f64_log2_from j acc m

/-- Floor of the binary logarithm of `m`, for `0 < m < 2^4096`. -/
def f64_log2 (m : Nat) : Nat := f64_log2_from 12 0 m

/-- Exponent and fraction fields of the `double` nearest to `m * 2^-1074`, ties
to even; infinity when the rounded value is out of range. -/
def f64_round (m : Nat) : Nat :=
  if m < 9007199254740992 then m
  else
    let k := f64_log2 m - 52
    let q := m / 2 ^ k
    let r := m % 2 ^ k
    let half := 2 ^ (k - 1)
    let q1 := if r > half ∨ (r = half ∧ q % 2 = 1) then q + 1 else q
    min (k * 4503599627370496 + q1) 9218868437227405312

/-- The built-in `a + b` on `double`. A NaN operand is returned quieted (the
first one when both are NaN); `inf + -inf` is the default NaN; an exact zero
sum of operands of opposite sign is `+0.0`. -/
def f64_add (a b : F64) : F64 :=
  if f64_exp a.val = 2047 ∧ f64_frac a.val ≠ 0 then
    Fin.ofNat (a.val / 4503599627370496 * 4503599627370496
      + (f64_frac a.val % 2251799813685248 + 2251799813685248))
  else if f64_exp b.val = 2047 ∧ f64_frac b.val ≠ 0 then
    Fin.ofNat (b.val / 4503599627370496 * 4503599627370496
      + (f64_frac b.val % 2251799813685248 + 2251799813685248))
  else if f64_exp a.val = 2047 then
    if f64_exp b.val = 2047 ∧ f64_sign a.val ≠ f64_sign b.val then
      Fin.ofNat 18444492273895866368
    else a
  else if f64_exp b.val = 2047 then b
  else if f64_sign a.val = f64_sign b.val then
    Fin.ofNat (f64_sign a.val * 9223372036854775808 + f64_round (f64_mag a.val + f64_mag b.val))
  else if f64_mag a.val = f64_mag b.val then Fin.ofNat 0
  else if f64_mag a.val > f64_mag b.val then
    Fin.ofNat (f64_sign a.val * 9223372036854775808 + f64_round (f64_mag a.val - f64_mag b.val))
  else
    Fin.ofNat (f64_sign b.val * 9223372036854775808 + f64_round (f64_mag b.val - f64_mag a.val))

/-- The `double` literal `0.0`. -/
def F64_ZERO : F64 := Fin.ofNat 0

/-- The `double` literal `1.0`. -/
def F64_ONE : F64 := Fin.ofNat 4607182418800017408

/-! ## Producer and consumer

`produce` and `consume` work on the global `ScratchPad<> scratch_pad`
(`NUM_BYTES = 1024`). The three collaborators are only declared where
`produce` and `consume` are written: the two sources are state machines given
as parameters, and `publish` appends to the list of published values. -/

/-- `NUM_BYTES` of the global `scratch_pad`. -/
def NUM_BYTES_DEFAULT : Nat := 1024

/-- The collaborators `get_next_batch_size` and `get_next_value`, each a step
function on its own hidden state. -/
structure Env (σ τ : Type) where
  get_next_batch_size : σ → Int × σ
  get_next_value : τ → F64 × τ

/-- Everything `produce` and `consume` read or write. -/
structure World (σ τ : Type) where
  scratch_pad : ScratchPad
  batch_src : σ
  value_src : τ
  published : List F64

/-- The `for` loop of `produce` with `n` iterations left. -/
def produce_batch {σ τ : Type} (env : Env σ τ) :
    Nat → World σ τ → Except Error Unit × World σ τ
  | 0, w => (.ok (), w)
  | n + 1, w =>
    let r := env.get_next_value w.value_src
    match w.scratch_pad.push NUM_BYTES_DEFAULT (double_bytes r.1) with
    | (.ok _, p) => produce_batch env n { w with scratch_pad := p, value_src := r.2 }
    | (.error e, p) => (.error e, { w with scratch_pad := p, value_src := r.2 })

/-- The `while` loop of `produce`; `none` when `fuel` iterations do not reach
its end. -/
def produce_loop {σ τ : Type} (env : Env σ τ) :
    Nat → World σ τ → Option (Except Error Unit × World σ τ)
  | 0, _ => none
  | fuel + 1, w =>
    let r := env.get_next_batch_size w.batch_src
    let batch_size := r.1
    let w1 := { w with batch_src := r.2 }
    if batch_size > 0 then
      match produce_batch env batch_size.toNat w1 with
      | (.ok _, w2) =>
        match w2.scratch_pad.push NUM_BYTES_DEFAULT (int_bytes batch_size) with
        | (.ok _, p) => produce_loop env fuel { w2 with scratch_pad := p }
        | (.error e, p) => some (.error e, { w2 with scratch_pad := p })
      | (.error e, w2) => some (.error e, w2)
    else
      some (.ok (), w1)

/-- `produce()`. -/
def produce {σ τ : Type} (env : Env σ τ) (fuel : Nat) (w : World σ τ) :
    Option (Except Error Unit × World σ τ) :=
  match w.scratch_pad.push NUM_BYTES_DEFAULT (int_bytes 0) with
  | (.ok _, p) => produce_loop env fuel { w with scratch_pad := p }
  | (.error e, p) => some (.error e, { w with scratch_pad := p })

/-- The `for` loop of `consume` with `n` iterations left and the running
`sum`. -/
def consume_batch {σ τ : Type} :
    Nat → F64 → World σ τ → Except Error F64 × World σ τ
  | 0, sum, w => (.ok sum, w)
  | n + 1, sum, w =>
    match w.scratch_pad.pop SIZEOF_DOUBLE with
    | (.ok bs, p) => consume_batch n (f64_add sum (double_of_bytes bs)) { w with scratch_pad := p }
    | (.error e, p) => (.error e, { w with scratch_pad := p })

/-- `publish(d)`: one more value on the output. -/
def publish {σ τ : Type} (d : F64) (w : World σ τ) : World σ τ :=
  { w with published := w.published ++ [d] }

/-- `consume()`; `none` when `fuel` iterations of its `while` loop do not reach
the end. -/
def consume {σ τ : Type} : Nat → World σ τ → Option (Except Error Unit × World σ τ)
  | 0, _ => none
  | fuel + 1, w =>
    match w.scratch_pad.pop SIZEOF_INT with
    | (.ok bs, p) =>
      let batch_size := int_of_bytes bs
      let w1 := { w with scratch_pad := p }
      if batch_size > 0 then
        match consume_batch batch_size.toNat F64_ZERO w1 with
        | (.ok sum, w2) => consume fuel (publish sum w2)
        | (.error e, w2) => some (.error e, w2)
      else
        some (.ok (), w1)
    | (.error e, p) => some (.error e, { w with scratch_pad := p })

/-- `main()`: `produce(); consume();`. -/
def main {σ τ : Type} (env : Env σ τ) (fuel : Nat) (w : World σ τ) :
    Option (Except Error Unit × World σ τ) :=
  match produce env fuel w with
  | some (.ok _, w1) => consume fuel w1
  | other => other

/-- `get_next_batch_size()` of the file: the state is its `static int i`, returned
before it is decremented. The decrement is exact: the run stops calling long
before `i` could reach `INT_MIN`. -/
def get_next_batch_size (i : Int) : Int × Int := (i, i - 1)

/-- `get_next_value()` of the file: the state is its `static double d`, returned
after `1.0` is added to it. -/
def get_next_value (d : F64) : F64 × F64 := (f64_add d F64_ONE, f64_add d F64_ONE)

/-- The collaborators as the file defines them. -/
def reference_env : Env Int F64 :=
  { get_next_batch_size := get_next_batch_size, get_next_value := get_next_value }

/-- State at program start: the global `scratch_pad` is zero-initialised,
`i = 3`, `d = 0.0`, nothing published. -/
def initial_world : World Int F64 :=
  { scratch_pad := { m_offset := 0, m_buffer := List.replicate NUM_BYTES_DEFAULT 0 },
    batch_src := 3, value_src := F64_ZERO, published := [] }

/-! ## Vocabulary of the statements -/

/-- The bytes currently held: `m_buffer[0 .. m_offset)`. -/
def ScratchPad.held (p : ScratchPad) : List Byte :=
  p.m_buffer.take p.m_offset

/-- One call on a `ScratchPad`: `push(value)` or `pop<T>()` with
`sizeof(T) = sizeofT`. -/
inductive Op where
  | push (value : List Byte)
  | pop (sizeofT : Nat)
  deriving DecidableEq, Repr

/-- Runs the calls `ops` in order; `none` as soon as one of them fails its
assertion. -/
def runOps (NUM_BYTES : Nat) : ScratchPad → List Op → Option ScratchPad
  | p, [] => some p
  | p, .push value :: ops =>
    match p.push NUM_BYTES value with
    | (.ok _, p1) => runOps NUM_BYTES p1 ops
    | (.error _, _) => none
  | p, .pop sizeofT :: ops =>
    match p.pop sizeofT with
    | (.ok _, p1) => runOps NUM_BYTES p1 ops
    | (.error _, _) => none

/-- Sizes of the values pushed and not yet popped (latest first) after the calls
`ops`, starting from `sizes`; `none` when some pop does not ask for the size of
the latest value still held, that is when the pops do not mirror the pushes. -/
def heldSizes : List Nat → List Op → Option (List Nat)
  | sizes, [] => some sizes
  | sizes, .push value :: ops => heldSizes (value.length :: sizes) ops
  | [], .pop _ :: _ => none
  | n :: sizes, .pop sizeofT :: ops =>
    if sizeofT = n then heldSizes sizes ops else none

/-- The first `n` results of a collaborator called repeatedly from state `s`,
with the state it is left in. -/
def drain {σ α : Type} (step : σ → α × σ) : Nat → σ → List α × σ
  | 0, s => ([], s)
  | n + 1, s => ((step s).1 :: (drain step n (step s).2).1, (drain step n (step s).2).2)

/-- Bytes pushed for one batch: its elements in order, then its size. -/
def batch_bytes (batch : List F64) : List Byte :=
  (batch.map double_bytes).flatten ++ int_bytes batch.length

/-- Bytes pushed by `produce` for the given batches: the marker `0`, then each
batch in order. -/
def stream_bytes (batches : List (List F64)) : List Byte :=
  int_bytes 0 ++ (batches.map batch_bytes).flatten

/-- The value `consume` publishes for a batch: the elements are added to `0.0`
from the last pushed to the first. -/
def batch_sum (batch : List F64) : F64 :=
  batch.reverse.foldl f64_add F64_ZERO

/-- A 16-byte pad that already holds two bytes. -/
def example_pad : ScratchPad :=
  { m_offset := 2, m_buffer := [17, 34, 0, 0, 0, 0, 0, 0, 0, 0, 0, 0, 0, 0, 0, 0] }

/-- The `int` 7 followed by the `double` 2.5. -/
def example_values : List (List Byte) :=
  [int_bytes 7, double_bytes (Fin.ofNat 4612811918334230528)]

/-- The pad after the bytes `bs` have been stored above what it holds. -/
def ScratchPad.pushed (p : ScratchPad) (bs : List Byte) : ScratchPad :=
  { m_offset := p.m_offset + bs.length, m_buffer := memcpy_to p.m_buffer p.m_offset bs }

/-- Sources that replay given lists, and yield `0` and `0.0` once exhausted. -/
def list_env : Env (List Int) (List F64) :=
  { get_next_batch_size := fun l => (l.headD 0, l.tail),
    get_next_value := fun l => (l.headD F64_ZERO, l.tail) }

/-- The `double` literal `2.0`. -/
def F64_TWO : F64 := Fin.ofNat 4611686018427387904

/-- The `double` literal `3.0`. -/
def F64_THREE : F64 := Fin.ofNat 4613937818241073152

/-- The `double` literal `4.0`. -/
def F64_FOUR : F64 := Fin.ofNat 4616189618054758400

/-- The `double` literal `5.0`. -/
def F64_FIVE : F64 := Fin.ofNat 4617315517961601024

/-- The `double` literal `6.0`. -/
def F64_SIX : F64 := Fin.ofNat 4618441417868443648

/-- The `double` literal `9.0`. -/
def F64_NINE : F64 := Fin.ofNat 4621256167635550208

/-- The batches of the reference run: `[1, 2, 3]`, `[4, 5]`, `[6]`. -/
def reference_batches : List (List F64) :=
  [[F64_ONE, F64_TWO, F64_THREE], [F64_FOUR, F64_FIVE], [F64_SIX]]

/-- A run with the batches `[1]` and `[2, 3]` on the zero-initialised pad. -/
def two_batch_world : World (List Int) (List F64) :=
  { scratch_pad := { m_offset := 0, m_buffer := List.replicate NUM_BYTES_DEFAULT 0 },
    batch_src := [1, 2, 0], value_src := [F64_ONE, F64_TWO, F64_THREE], published := [] }

/-- Called from the state of `w`, the batch-size source yields the sizes of
`batches`, all positive, and then `last <= 0`, while the value source yields the
elements of `batches` in order. -/
def Delivers {σ τ : Type} (env : Env σ τ) (w : World σ τ) (batches : List (List F64))
    (last : Int) : Prop :=
  (drain env.get_next_batch_size (batches.length + 1) w.batch_src).1
      = batches.map (fun b => (b.length : Int)) ++ [last] ∧
    last ≤ 0 ∧ (∀ b ∈ batches, 0 < b.length) ∧
    (drain env.get_next_value batches.flatten.length w.value_src).1 = batches.flatten

/-! ## Blocked reorder (`source/blocked_reorder.cpp`)

The five arrays are distinct objects. An index computed in `uint32_t` is taken
modulo `2^32`; an access outside an array is undefined behaviour and is
reported as `OutOfBounds`. A `float` is moved as its 32-bit pattern. -/

/-- A `uint32_t`. -/
abbrev U32 := Fin 4294967296

/-- A `float`, as its 32-bit pattern. -/
abbrev F32 := Fin 4294967296

/-- Number of values of `uint32_t`. -/
def UINT32_MOD : Nat := 4294967296

/-- `sizeof(float)`. -/
def SIZEOF_FLOAT : Nat := 4

/-- An access outside the array it is made on. -/
inductive Fault where
  | OutOfBounds
  deriving DecidableEq, Repr

/-- The arrays the two reorder functions are given. -/
structure Arrays where
  src : List F32
  dst : List F32
  src_block_starts : List U32
  dst_block_starts : List U32
  block_sizes : List U32
  deriving DecidableEq, Repr

/-- The inner `for` loop of `blocked_reorder_naive` from `elem_idx` on; `none`
when `fuel` iterations do not reach its end. `elem_idx` stays below the block
size, so `++elem_idx` is exact. -/
def naive_elems (block_idx : Nat) : Nat → Nat → Arrays → Option (Except Fault Arrays)
  | 0, _, _ => none
  | fuel + 1, elem_idx, a =>
    match a.block_sizes[block_idx]? with
    | none => some (.error .OutOfBounds)
    | some size =>
      if elem_idx < size.val then
        match a.src_block_starts[block_idx]?, a.dst_block_starts[block_idx]? with
        | some src_start, some dst_start =>
          match a.src[(src_start.val + elem_idx) % UINT32_MOD]? with
          | some f =>
            if (dst_start.val + elem_idx) % UINT32_MOD < a.dst.length then
              naive_elems block_idx fuel (elem_idx + 1)
                { a with dst := a.dst.set ((dst_start.val + elem_idx) % UINT32_MOD) f }
            else some (.error .OutOfBounds)
          | none => some (.error .OutOfBounds)
        | _, _ => some (.error .OutOfBounds)
      else some (.ok a)

/-- The outer `for` loop of `blocked_reorder_naive` with `n` blocks left, the
next one being `block_idx`. -/
def naive_blocks (fuel : Nat) : Nat → Nat → Arrays → Option (Except Fault Arrays)
  | 0, _, a => some (.ok a)
  | n + 1, block_idx, a =>
    match naive_elems block_idx fuel 0 a with
    | some (.ok a1) => naive_blocks fuel n (block_idx + 1) a1
    | other => other

/-- `blocked_reorder_naive(src, dst, src_block_starts, dst_block_starts,
block_sizes, num_blocks)`. -/
def blocked_reorder_naive (fuel : Nat) (a : Arrays) (num_blocks : U32) :
    Option (Except Fault Arrays) :=
  naive_blocks fuel num_blocks.val 0 a

/-- The array `dst` with `dst[d .. d + n)` replaced by `src[s .. s + n)`. -/
def copy_block {α : Type} (dst : List α) (d : Nat) (src : List α) (s n : Nat) : List α :=
  dst.take d ++ (src.drop s).take n ++ dst.drop (d + n)

/-- `memcpy(&dst[d], &src[s], num_bytes)` between two distinct `float` arrays,
for `num_bytes` a multiple of `sizeof(float)`: whole elements are copied. -/
def memcpy_floats (dst : List F32) (d : Nat) (src : List F32) (s : Nat) (num_bytes : Nat) :
    Except Fault (List F32) :=
  if s + num_bytes / SIZEOF_FLOAT ≤ src.length ∧ d + num_bytes / SIZEOF_FLOAT ≤ dst.length then
    .ok (copy_block dst d src s (num_bytes / SIZEOF_FLOAT))
  else .error .OutOfBounds

/-- The `for` loop of `blocked_reorder_memcpy` with `n` blocks left, the next
one being `block_idx`. The byte count is computed in `size_t`. -/
def memcpy_blocks : Nat → Nat → Arrays → Except Fault Arrays
  | 0, _, a => .ok a
  | n + 1, block_idx, a =>
    match a.dst_block_starts[block_idx]?, a.src_block_starts[block_idx]?,
      a.block_sizes[block_idx]? with
    | some dst_start, some src_start, some size =>
      match memcpy_floats a.dst dst_start.val a.src src_start.val
        (size.val * SIZEOF_FLOAT % SIZE_T_MOD) with
      | .ok dst1 => memcpy_blocks n (block_idx + 1) { a with dst := dst1 }
      | .error e => .error e
    | _, _, _ => .error .OutOfBounds

/-- `blocked_reorder_memcpy(src, dst, src_block_starts, dst_block_starts,
block_sizes, num_blocks)`. -/
def blocked_reorder_memcpy (a : Arrays) (num_blocks : U32) : Except Fault Arrays :=
  memcpy_blocks num_blocks.val 0 a

/-- `src_block_starts[b]`. -/
def Arrays.srcStart (a : Arrays) (b : Nat) : Nat := (a.src_block_starts.getD b 0).val

/-- `dst_block_starts[b]`. -/
def Arrays.dstStart (a : Arrays) (b : Nat) : Nat := (a.dst_block_starts.getD b 0).val

/-- `block_sizes[b]`. -/
def Arrays.blockSize (a : Arrays) (b : Nat) : Nat := (a.block_sizes.getD b 0).val

/-- The three index arrays have an entry for each of the first `n` blocks, and
each of these blocks lies within `src` and within `dst`, at indices that
`uint32_t` arithmetic reaches without wrapping. -/
def Arrays.BlocksWithin (a : Arrays) (n : Nat) : Prop :=
  (n ≤ a.src_block_starts.length ∧ n ≤ a.dst_block_starts.length ∧ n ≤ a.block_sizes.length) ∧
  ∀ b, b < n →
    a.srcStart b + a.blockSize b ≤ a.src.length ∧
    a.dstStart b + a.blockSize b ≤ a.dst.length ∧
    a.srcStart b + a.blockSize b ≤ UINT32_MOD ∧
    a.dstStart b + a.blockSize b ≤ UINT32_MOD

instance (a : Arrays) (n : Nat) : Decidable (a.BlocksWithin n) := by
  unfold Arrays.BlocksWithin; infer_instance

/-- The destination ranges of the first `n` blocks lie apart: of two different
blocks one ends before the other starts. -/
def Arrays.DstDisjoint (a : Arrays) (n : Nat) : Prop :=
  ∀ b, b < n → ∀ c, c < n → b ≠ c →
    a.dstStart b + a.blockSize b ≤ a.dstStart c ∨ a.dstStart c + a.blockSize c ≤ a.dstStart b

instance (a : Arrays) (n : Nat) : Decidable (a.DstDisjoint n) := by
  unfold Arrays.DstDisjoint; infer_instance

/-- Two blocks whose destination ranges overlap, and one empty block. -/
def overlapping_arrays : Arrays :=
  { src := [10, 11, 12, 13, 14, 15, 16, 17],
    dst := [90, 91, 92, 93, 94, 95, 96, 97],
    src_block_starts := [0, 4, 7],
    dst_block_starts := [1, 2, 8],
    block_sizes := [3, 3, 0] }

/-! ## `blocked_reorder_naive` on raw pointers

The same function with `src` and `dst` as what they are, addresses into one
memory of `float`s (counted in elements), so that the two arrays may be the
same array or overlap. The index arrays hold `uint32_t` objects, which no
`float` access may touch, and stay lists of their own. Memory itself has no
bounds: where the arrays end is part of the statements, not of the code. -/

/-- The memory of `float`s and the three index arrays. -/
structure Heap where
  floats : Nat → F32
  src_block_starts : List U32
  dst_block_starts : List U32
  block_sizes : List U32

/-- The inner `for` loop of `blocked_reorder_naive` from `elem_idx` on, with
`src` and `dst` the addresses the two pointers hold; `none` when `fuel`
iterations do not reach its end. -/
def naive_elems_ptr (src dst block_idx : Nat) : Nat → Nat → Heap → Option (Except Fault Heap)
  | 0, _, _ => none
  | fuel + 1, elem_idx, h =>
    match h.block_sizes[block_idx]? with
    | none => some (.error .OutOfBounds)
    | some size =>
      if elem_idx < size.val then
        match h.src_block_starts[block_idx]?, h.dst_block_starts[block_idx]? with
        | some src_start, some dst_start =>
          naive_elems_ptr src dst block_idx fuel (elem_idx + 1)
            { h with
              floats := fun a =>
                if a = dst + (dst_start.val + elem_idx) % UINT32_MOD then
                  h.floats (src + (src_start.val + elem_idx) % UINT32_MOD)
                else h.floats a }
        | _, _ => some (.error .OutOfBounds)
      else some (.ok h)

/-- The outer `for` loop of `blocked_reorder_naive` on raw pointers, with `n`
blocks left, the next one being `block_idx`. -/
def naive_blocks_ptr (fuel src dst : Nat) : Nat → Nat → Heap → Option (Except Fault Heap)
  | 0, _, h => some (.ok h)
  | n + 1, block_idx, h =>
    match naive_elems_ptr src dst block_idx fuel 0 h with
    | some (.ok h1) => naive_blocks_ptr fuel src dst n (block_idx + 1) h1
    | other => other

/-- `blocked_reorder_naive(src, dst, src_block_starts, dst_block_starts,
block_sizes, num_blocks)` on raw pointers. -/
def blocked_reorder_naive_ptr (fuel src dst : Nat) (h : Heap) (num_blocks : U32) :
    Option (Except Fault Heap) :=
  naive_blocks_ptr fuel src dst num_blocks.val 0 h

/-- The `float` at address `a` once the run `r` has ended; `none` when the run
did not end normally. -/
def float_after (r : Option (Except Fault Heap)) (a : Nat) : Option F32 :=
  match r with
  | some (.ok h) => some (h.floats a)
  | _ => none

/-- `src_block_starts[b]`. -/
def Heap.srcStart (h : Heap) (b : Nat) : Nat := (h.src_block_starts.getD b 0).val

/-- `dst_block_starts[b]`. -/
def Heap.dstStart (h : Heap) (b : Nat) : Nat := (h.dst_block_starts.getD b 0).val

/-- `block_sizes[b]`. -/
def Heap.blockSize (h : Heap) (b : Nat) : Nat := (h.block_sizes.getD b 0).val

/-- The three index arrays have an entry for each of the first `n` blocks, and
each of these blocks lies within the bounds of `src` (of `src_len` elements)
and of `dst` (of `dst_len` elements). -/
def Heap.BlocksInBounds (h : Heap) (src_len dst_len n : Nat) : Prop :=
  (n ≤ h.src_block_starts.length ∧ n ≤ h.dst_block_starts.length ∧ n ≤ h.block_sizes.length) ∧
  ∀ b, b < n →
    h.srcStart b + h.blockSize b ≤ src_len ∧ h.dstStart b + h.blockSize b ≤ dst_len

instance (h : Heap) (src_len dst_len n : Nat) : Decidable (h.BlocksInBounds src_len dst_len n) := by
  unfold Heap.BlocksInBounds; infer_instance

/-- No index of the first `n` blocks reaches `2^32`: the `uint32_t` sums
`start + elem_idx` do not wrap. -/
def Heap.NoWrap (h : Heap) (n : Nat) : Prop :=
  ∀ b, b < n →
    h.srcStart b + h.blockSize b ≤ UINT32_MOD ∧ h.dstStart b + h.blockSize b ≤ UINT32_MOD

instance (h : Heap) (n : Nat) : Decidable (h.NoWrap n) := by
  unfold Heap.NoWrap; infer_instance

/-- The destination ranges of the first `n` blocks are pairwise disjoint: two
different blocks share no index of `dst`, that is one of them is empty or one
ends before the other starts. -/
def Heap.DstBlocksDisjoint (h : Heap) (n : Nat) : Prop :=
  ∀ b, b < n → ∀ c, c < n → b ≠ c →
    h.blockSize b = 0 ∨ h.blockSize c = 0 ∨
    h.dstStart b + h.blockSize b ≤ h.dstStart c ∨ h.dstStart c + h.blockSize c ≤ h.dstStart b

instance (h : Heap) (n : Nat) : Decidable (h.DstBlocksDisjoint n) := by
  unfold Heap.DstBlocksDisjoint; infer_instance

/-- Index `k` of `dst` lies in the destination range of one of the first `n`
blocks. -/
def Heap.InDstBlock (h : Heap) (n k : Nat) : Prop :=
  ∃ b, b < n ∧ h.dstStart b ≤ k ∧ k < h.dstStart b + h.blockSize b

instance (h : Heap) (n k : Nat) : Decidable (h.InDstBlock n k) := by
  unfold Heap.InDstBlock; infer_instance

/-- The arrays `src` (of `src_len` elements) and `dst` (of `dst_len` elements)
are distinct: they share no element. -/
def Separate (src src_len dst dst_len : Nat) : Prop :=
  src + src_len ≤ dst ∨ dst + dst_len ≤ src

instance (src src_len dst dst_len : Nat) : Decidable (Separate src src_len dst dst_len) := by
  unfold Separate; infer_instance

/-- Memory after `mem[dst .. dst + n)` has been overwritten with what
`mem[src .. src + n)` held. -/
def copy_at (mem : Nat → F32) (dst src n : Nat) : Nat → F32 :=
  fun a => if dst ≤ a ∧ a < dst + n then mem (src + (a - dst)) else mem a

/-- Memory that holds the given elements from address 0 on, and `0.0f`
elsewhere. -/
def floats_of (xs : List F32) : Nat → F32 := fun a => xs.getD a 0

/-- An 8-element `src` at address 0 and an 8-element `dst` at address 8; three
blocks of sizes 2, 0 and 3, the empty one placed inside the range of the
third. -/
def example_heap : Heap :=
  { floats := floats_of [10, 11, 12, 13, 14, 15, 16, 17, 90, 91, 92, 93, 94, 95, 96, 97],
    src_block_starts := [5, 2, 0],
    dst_block_starts := [0, 4, 3],
    block_sizes := [2, 0, 3] }

/-- A `src` of `2^32 + 1` elements at address 0, all `0.0f` but the last, and a
two-element `dst` right after it; one block of two elements that starts at the
last index below `2^32`. -/
def wrapping_heap : Heap :=
  { floats := fun a => if a = 4294967296 then 1065353216 else 0,
    src_block_starts := [4294967295],
    dst_block_starts := [0],
    block_sizes := [2] }

/-- One three-element array used as both `src` and `dst`; one block of two
elements moved up by one place. -/
def aliased_heap : Heap :=
  { floats := floats_of [10, 11, 12],
    src_block_starts := [0],
    dst_block_starts := [1],
    block_sizes := [2] }

/-! ## Matrix times vector (`source/matrix_vector.cpp`, `source/matrix_vector.hpp`)

The `float m[16]` of the matrix and the `float v[4]` of a vector are lists of
32-bit patterns; `m[col]` is the four-element view that starts at `m[col*3]`,
so `m[col][j]` is the flat element `col*3 + j`. The matrix, the vector argument
and the local `result` are distinct objects. -/

/-- Sign bit of a `float`. -/
def f32_sign (x : Nat) : Nat := x / 2147483648 % 2

/-- Biased exponent field of a `float` (8 bits). -/
def f32_exp (x : Nat) : Nat := x / 8388608 % 256

/-- Fraction field of a `float` (23 bits). -/
def f32_frac (x : Nat) : Nat := x % 8388608

/-- Absolute value of a finite `float`, in units of `2^-149`. -/
def f32_mag (x : Nat) : Nat :=
  if f32_exp x = 0 then f32_frac x
  else (8388608 + f32_frac x) * 2 ^ (f32_exp x - 1)

/-- Exponent and fraction fields of the `float` nearest to `m * 2^-149`, ties to
even; infinity when the rounded value is out of range. -/
def f32_round (m : Nat) : Nat :=
  if m < 16777216 then m
  else
    let k := f64_log2 m - 23
    let q := m / 2 ^ k
    let r := m % 2 ^ k
    let half := 2 ^ (k - 1)
    let q1 := if r > half ∨ (r = half ∧ q % 2 = 1) then q + 1 else q
    min (k * 8388608 + q1) 2139095040

/-- The built-in `a + b` on `float` (IEEE-754 binary32, round to nearest, ties
to even), with the conventions of `f64_add` for NaN, infinities and zero. -/
def f32_add (a b : F32) : F32 :=
  if f32_exp a.val = 255 ∧ f32_frac a.val ≠ 0 then
    Fin.ofNat (a.val / 8388608 * 8388608 + (f32_frac a.val % 4194304 + 4194304))
  else if f32_exp b.val = 255 ∧ f32_frac b.val ≠ 0 then
    Fin.ofNat (b.val / 8388608 * 8388608 + (f32_frac b.val % 4194304 + 4194304))
  else if f32_exp a.val = 255 then
    if f32_exp b.val = 255 ∧ f32_sign a.val ≠ f32_sign b.val then Fin.ofNat 4290772992
    else a
  else if f32_exp b.val = 255 then b
  else if f32_sign a.val = f32_sign b.val then
    Fin.ofNat (f32_sign a.val * 2147483648 + f32_round (f32_mag a.val + f32_mag b.val))
  else if f32_mag a.val = f32_mag b.val then Fin.ofNat 0
  else if f32_mag a.val > f32_mag b.val then
    Fin.ofNat (f32_sign a.val * 2147483648 + f32_round (f32_mag a.val - f32_mag b.val))
  else
    Fin.ofNat (f32_sign b.val * 2147483648 + f32_round (f32_mag b.val - f32_mag a.val))

/-- The `float` literal `0.0f`. -/
def F32_ZERO : F32 := Fin.ofNat 0

/-- Reading `xs[i]`. -/
def load (xs : List F32) (i : Nat) : Except Fault F32 :=
  match xs[i]? with
  | some f => .ok f
  | none => .error .OutOfBounds

/-- The array after `xs[i] = f`. -/
def store (xs : List F32) (i : Nat) (f : F32) : Except Fault (List F32) :=
  if i < xs.length then .ok (xs.set i f) else .error .OutOfBounds

/-- Flat index of `m[col][j]`: `matrix::operator[]` returns the vector at
`&m[col*3]` and `vector::operator[]` its element `j`. -/
def matrix_index (col j : Nat) : Nat := col * 3 + j

/-- The objects `matrix_vector_multiply` works on. -/
structure MatVec where
  m : List F32
  v : List F32
  result : List F32
  deriving DecidableEq, Repr

/-- The statement `result[0] += m[i][0] = v[0];`: the assignment stores `v[0]`
in the matrix and has that value. -/
def assign_and_add (i : Nat) (s : MatVec) : Except Fault MatVec := do
  let v0 ← load s.v 0
  let m1 ← store s.m (matrix_index i 0) v0
  let r0 ← load s.result 0
  let result1 ← store s.result 0 (f32_add r0 v0)
  pure { s with m := m1, result := result1 }

/-- The statement `result[j] += m[i][j] + v[j];`. -/
def add_sum (i j : Nat) (s : MatVec) : Except Fault MatVec := do
  let x ← load s.m (matrix_index i j)
  let vj ← load s.v j
  let rj ← load s.result j
  let result1 ← store s.result j (f32_add rj (f32_add x vj))
  pure { s with result := result1 }

/-- The body of the `for` loop of `matrix_vector_multiply` for one `i`. -/
def multiply_step (i : Nat) (s : MatVec) : Except Fault MatVec := do
  let s1 ← assign_and_add i s
  let s2 ← add_sum i 1 s1
  let s3 ← add_sum i 2 s2
  add_sum i 3 s3

/-- The `for` loop of `matrix_vector_multiply` with `n` iterations left, the
next one for `i`. -/
def multiply_loop : Nat → Nat → MatVec → Except Fault MatVec
  | 0, _, s => .ok s
  | n + 1, i, s =>
    match multiply_step i s with
    | .ok s1 => multiply_loop n (i + 1) s1
    | .error e => .error e

/-- `matrix_vector_multiply(m, v)`: the returned state holds the matrix and the
vector as the call leaves them and the returned `result`. -/
def matrix_vector_multiply (m v : List F32) : Except Fault MatVec :=
  multiply_loop 3 0 { m := m, v := v, result := [F32_ZERO, F32_ZERO, F32_ZERO, F32_ZERO] }

/-- A matrix whose flat elements are `0.0f, 1.0f, .., 15.0f`. -/
def example_matrix : List F32 :=
  [0, 1065353216, 1073741824, 1077936128, 1082130432, 1084227584, 1086324736, 1088421888,
   1090519040, 1091567616, 1092616192, 1093664768, 1094713344, 1095761920, 1096810496,
   1097859072]

/-- The vector `(1.0f, 2.0f, 3.0f, 4.0f)` of `matrix_vector_main.cpp`. -/
def example_vector : List F32 := [1065353216, 1073741824, 1077936128, 1082130432]

/-! ## Lemmas on `memcpy` -/

theorem memcpy_to_length (buf : List Byte) (off : Nat) (src : List Byte)
    (h : off + src.length ≤ buf.length) : (memcpy_to buf off src).length = buf.length := by
  simp only [memcpy_to, List.length_append, List.length_take, List.length_drop]
  omega

theorem memcpy_to_take (buf : List Byte) (off : Nat) (src : List Byte)
    (h : off ≤ buf.length) : (memcpy_to buf off src).take off = buf.take off := by
  have hl : (buf.take off).length = off := by simp [List.length_take, h]
  simp only [memcpy_to, List.append_assoc]
  rw [List.take_append_of_le_length (by omega)]
  rw [List.take_of_length_le (by omega)]

theorem memcpy_to_take_end (buf : List Byte) (off : Nat) (src : List Byte)
    (h : off ≤ buf.length) :
    (memcpy_to buf off src).take (off + src.length) = buf.take off ++ src := by
  have hl : (buf.take off ++ src).length = off + src.length := by
    simp [List.length_take, h]
  simp only [memcpy_to]
  rw [← hl, List.take_left']
  rfl

theorem memcpy_from_to (buf : List Byte) (off : Nat) (src : List Byte)
    (h : off ≤ buf.length) : memcpy_from (memcpy_to buf off src) off src.length = src := by
  have hl : (buf.take off).length = off := by simp [List.length_take, h]
  simp only [memcpy_from, memcpy_to, List.append_assoc]
  rw [List.drop_append_of_le_length (by omega)]
  rw [List.drop_of_length_le (by omega), List.nil_append]
  exact List.take_left' rfl

theorem memcpy_to_getElem?_of_lt (buf : List Byte) (off : Nat) (src : List Byte) (i : Nat)
    (h : off ≤ buf.length) (hi : i < off) : (memcpy_to buf off src)[i]? = buf[i]? := by
  have h1 := memcpy_to_take buf off src h
  have h2 : ((memcpy_to buf off src).take off)[i]? = (buf.take off)[i]? := by rw [h1]
  rwa [List.getElem?_take_of_lt hi, List.getElem?_take_of_lt hi] at h2

theorem memcpy_to_drop (buf : List Byte) (off : Nat) (src : List Byte)
    (h : off ≤ buf.length) :
    (memcpy_to buf off src).drop (off + src.length) = buf.drop (off + src.length) := by
  have hl : (buf.take off ++ src).length = off + src.length := by
    simp [List.length_take, h]
  simp only [memcpy_to]
  rw [← hl, List.drop_left']
  rw [hl]

theorem memcpy_to_getElem?_of_ge (buf : List Byte) (off : Nat) (src : List Byte) (i : Nat)
    (h : off ≤ buf.length) (hi : off + src.length ≤ i) :
    (memcpy_to buf off src)[i]? = buf[i]? := by
  have h1 := memcpy_to_drop buf off src h
  have h2 : ((memcpy_to buf off src).drop (off + src.length))[i - (off + src.length)]?
      = (buf.drop (off + src.length))[i - (off + src.length)]? := by rw [h1]
  rw [List.getElem?_drop, List.getElem?_drop] at h2
  have e : off + src.length + (i - (off + src.length)) = i := by omega
  rwa [e] at h2

theorem memcpy_to_append (buf : List Byte) (off : Nat) (a b : List Byte)
    (h : off + a.length ≤ buf.length) :
    memcpy_to (memcpy_to buf off a) (off + a.length) b = memcpy_to buf off (a ++ b) := by
  have h0 : off ≤ buf.length := by omega
  unfold memcpy_to
  have e1 : (buf.take off ++ a ++ buf.drop (off + a.length)).take (off + a.length)
      = buf.take off ++ a := memcpy_to_take_end buf off a h0
  have e2 : (buf.take off ++ a ++ buf.drop (off + a.length)).drop (off + a.length + b.length)
      = buf.drop (off + (a ++ b).length) := by
    have := memcpy_to_drop buf off a h0
    unfold memcpy_to at this
    rw [← List.drop_drop, this, List.drop_drop, List.length_append]
    congr 1
    omega
  rw [e1, e2, List.append_assoc (buf.take off) a b]

theorem memcpy_to_nil (buf : List Byte) (off : Nat) : memcpy_to buf off [] = buf := by
  simp [memcpy_to]

theorem memcpy_from_length (buf : List Byte) (off n : Nat) (h : off + n ≤ buf.length) :
    (memcpy_from buf off n).length = n := by
  simp only [memcpy_from, List.length_take, List.length_drop]
  omega

/-! ## Lemmas on `push` and `pop` -/

theorem push_eq_ok (NUM_BYTES : Nat) (p : ScratchPad) (value : List Byte)
    (hcap : NUM_BYTES < SIZE_T_MOD) (hfit : p.m_offset + value.length ≤ NUM_BYTES) :
    p.push NUM_BYTES value =
      (.ok (), { m_offset := p.m_offset + value.length,
                 m_buffer := memcpy_to p.m_buffer p.m_offset value }) := by
  have hm : (p.m_offset + value.length) % SIZE_T_MOD = p.m_offset + value.length :=
    Nat.mod_eq_of_lt (by omega)
  simp [ScratchPad.push, hm, hfit]

theorem push_eq_error (NUM_BYTES : Nat) (p : ScratchPad) (value : List Byte)
    (hwf : p.WellFormed NUM_BYTES) (hsz : NUM_BYTES + value.length < SIZE_T_MOD)
    (hfit : ¬ p.m_offset + value.length ≤ NUM_BYTES) :
    p.push NUM_BYTES value = (.error .Overflow, p) := by
  have hm : (p.m_offset + value.length) % SIZE_T_MOD = p.m_offset + value.length :=
    Nat.mod_eq_of_lt (by have := hwf.1; omega)
  simp [ScratchPad.push, hm, hfit]

theorem push_wellFormed (NUM_BYTES : Nat) (p : ScratchPad) (value : List Byte)
    (hwf : p.WellFormed NUM_BYTES) (hfit : p.m_offset + value.length ≤ NUM_BYTES) :
    ScratchPad.WellFormed NUM_BYTES
      { m_offset := p.m_offset + value.length,
        m_buffer := memcpy_to p.m_buffer p.m_offset value } := by
  refine ⟨hfit, ?_⟩
  show (memcpy_to p.m_buffer p.m_offset value).length = NUM_BYTES
  rw [memcpy_to_length _ _ _ (by rw [hwf.2]; exact hfit), hwf.2]

theorem pop_eq_ok (p : ScratchPad) (sizeofT : Nat) (h : sizeofT ≤ p.m_offset) :
    p.pop sizeofT =
      (.ok (memcpy_from p.m_buffer (p.m_offset - sizeofT) sizeofT),
        { p with m_offset := p.m_offset - sizeofT }) := by
  simp [ScratchPad.pop, h]

theorem pop_eq_error (p : ScratchPad) (sizeofT : Nat) (h : ¬ sizeofT ≤ p.m_offset) :
    p.pop sizeofT = (.error .Underflow, p) := by
  simp [ScratchPad.pop, h]

/-- Popping the bytes on top of what is held returns them and uncovers the
rest. -/
theorem pop_held (p : ScratchPad) (pre top : List Byte)
    (hlen : p.m_offset ≤ p.m_buffer.length) (hheld : p.held = pre ++ top) :
    p.pop top.length = (.ok top, { p with m_offset := pre.length }) := by
  have hoff : p.m_offset = pre.length + top.length := by
    have := congrArg List.length hheld
    simp only [ScratchPad.held, List.length_take, List.length_append] at this
    omega
  rw [pop_eq_ok p top.length (by omega)]
  have e : p.m_offset - top.length = pre.length := by omega
  rw [e]
  have hsplit : p.m_buffer = (pre ++ top) ++ p.m_buffer.drop p.m_offset := by
    rw [← hheld]; exact (List.take_append_drop _ _).symm
  have hread : memcpy_from p.m_buffer pre.length top.length = top := by
    unfold memcpy_from
    rw [hsplit, List.append_assoc, List.drop_left]
    exact List.take_left' rfl
  rw [hread]

theorem held_after_pop (p : ScratchPad) (pre top : List Byte)
    (hheld : p.held = pre ++ top) :
    ScratchPad.held { p with m_offset := pre.length } = pre := by
  have hoff : pre.length ≤ p.m_offset := by
    have := congrArg List.length hheld
    simp only [ScratchPad.held, List.length_take, List.length_append] at this
    omega
  have h1 : (p.m_buffer.take p.m_offset).take pre.length = pre := by
    have := hheld
    unfold ScratchPad.held at this
    rw [this]
    exact List.take_left' rfl
  have h2 : p.m_buffer.take pre.length = (p.m_buffer.take p.m_offset).take pre.length := by
    rw [List.take_take, Nat.min_eq_left hoff]
  show p.m_buffer.take pre.length = pre
  rw [h2, h1]

theorem held_after_push (NUM_BYTES : Nat) (p : ScratchPad) (value : List Byte)
    (hwf : p.WellFormed NUM_BYTES) :
    ScratchPad.held { m_offset := p.m_offset + value.length,
                      m_buffer := memcpy_to p.m_buffer p.m_offset value }
      = p.held ++ value := by
  show (memcpy_to p.m_buffer p.m_offset value).take (p.m_offset + value.length) = _
  rw [memcpy_to_take_end _ _ _ (by rw [hwf.2]; exact hwf.1)]
  rfl

theorem push_ok_inv (NUM_BYTES : Nat) (p p1 : ScratchPad) (value : List Byte)
    (hwf : p.WellFormed NUM_BYTES) (hsz : NUM_BYTES + value.length < SIZE_T_MOD)
    (h : p.push NUM_BYTES value = (.ok (), p1)) :
    p.m_offset + value.length ≤ NUM_BYTES ∧
      p1 = { m_offset := p.m_offset + value.length,
             m_buffer := memcpy_to p.m_buffer p.m_offset value } := by
  by_cases hfit : p.m_offset + value.length ≤ NUM_BYTES
  · rw [push_eq_ok NUM_BYTES p value (by omega) hfit] at h
    exact ⟨hfit, (Prod.mk.inj h).2.symm⟩
  · rw [push_eq_error NUM_BYTES p value hwf hsz hfit] at h
    exact absurd (Prod.mk.inj h).1 (by simp)

theorem pop_ok_inv (p p1 : ScratchPad) (sizeofT : Nat) (v : List Byte)
    (h : p.pop sizeofT = (.ok v, p1)) :
    sizeofT ≤ p.m_offset ∧ v = memcpy_from p.m_buffer (p.m_offset - sizeofT) sizeofT ∧
      p1 = { p with m_offset := p.m_offset - sizeofT } := by
  by_cases hfit : sizeofT ≤ p.m_offset
  · rw [pop_eq_ok p sizeofT hfit] at h
    have h1 := (Prod.mk.inj h).1
    exact ⟨hfit, (Except.ok.inj h1).symm, (Prod.mk.inj h).2.symm⟩
  · rw [pop_eq_error p sizeofT hfit] at h
    exact absurd (Prod.mk.inj h).1 (by simp)

theorem pushSeq_eq_ok (NUM_BYTES : Nat) (hcap : NUM_BYTES < SIZE_T_MOD) :
    ∀ (vs : List (List Byte)) (p : ScratchPad), p.WellFormed NUM_BYTES →
      p.m_offset + vs.flatten.length ≤ NUM_BYTES →
      pushSeq NUM_BYTES p vs =
        (.ok (), { m_offset := p.m_offset + vs.flatten.length,
                   m_buffer := memcpy_to p.m_buffer p.m_offset vs.flatten }) := by
  intro vs
  induction vs with
  | nil =>
    intro p _ _
    simp [pushSeq, memcpy_to_nil]
  | cons v vs ih =>
    intro p hwf hfit
    simp only [List.flatten_cons, List.length_append] at hfit
    have hv : p.m_offset + v.length ≤ NUM_BYTES := by omega
    have hwf1 := push_wellFormed NUM_BYTES p v hwf hv
    simp only [pushSeq, push_eq_ok NUM_BYTES p v hcap hv]
    rw [ih _ hwf1 (by simp only; omega)]
    simp only [List.flatten_cons, List.length_append]
    rw [memcpy_to_append _ _ _ _ (by rw [hwf.2]; exact hv), Nat.add_assoc]

theorem popSeq_held :
    ∀ (rvs : List (List Byte)) (p : ScratchPad) (pre : List Byte),
      p.m_offset ≤ p.m_buffer.length → p.held = pre ++ rvs.reverse.flatten →
      popSeq p (rvs.map List.length) = (.ok rvs, { p with m_offset := pre.length }) := by
  intro rvs
  induction rvs with
  | nil =>
    intro p pre hlen hheld
    have hoff : p.m_offset = pre.length := by
      have := congrArg List.length hheld
      simp only [ScratchPad.held, List.length_take, List.reverse_nil, List.flatten_nil,
        List.append_nil] at this
      omega
    simp [popSeq, ← hoff]
  | cons v rvs ih =>
    intro p pre hlen hheld
    rw [List.reverse_cons, List.flatten_concat, ← List.append_assoc] at hheld
    have hle : (pre ++ rvs.reverse.flatten).length ≤ p.m_offset := by
      have := congrArg List.length hheld
      simp only [ScratchPad.held, List.length_take, List.length_append] at this
      simp only [List.length_append]
      omega
    simp only [List.map_cons, popSeq, pop_held p _ v hlen hheld]
    rw [ih _ pre (by simp only; omega) (held_after_pop p _ v hheld)]

/-! ## Lemmas on object representations -/

theorem le_bytes_length : ∀ (n x : Nat), (le_bytes n x).length = n := by
  intro n
  induction n with
  | zero => intro x; rfl
  | succ n ih => intro x; simp [le_bytes, ih]

theorem le_value_le_bytes : ∀ (n x : Nat), le_value (le_bytes n x) = x % 256 ^ n := by
  intro n
  induction n with
  | zero => intro x; simp [le_bytes, le_value, Nat.mod_one]
  | succ n ih =>
    intro x
    simp only [le_bytes, le_value, ih, Fin.ofNat, Nat.mod_mod]
    rw [Nat.pow_succ, Nat.mul_comm (256 ^ n) 256, Nat.mod_mul]

theorem int_bytes_length (v : Int) : (int_bytes v).length = SIZEOF_INT :=
  le_bytes_length _ _

theorem double_bytes_length (d : F64) : (double_bytes d).length = SIZEOF_DOUBLE :=
  le_bytes_length _ _

theorem double_of_bytes_double_bytes (d : F64) : double_of_bytes (double_bytes d) = d := by
  apply Fin.ext
  have h := d.isLt
  simp only [double_of_bytes, double_bytes, le_value_le_bytes, SIZEOF_DOUBLE, Fin.ofNat]
  omega

theorem int_of_bytes_int_bytes (v : Int) (hlo : -2147483648 ≤ v) (hhi : v < 2147483648) :
    int_of_bytes (int_bytes v) = v := by
  simp only [int_of_bytes, int_bytes, le_value_le_bytes, SIZEOF_INT]
  have h1 : ((v % 4294967296).toNat : Int) = v % 4294967296 :=
    Int.toNat_of_nonneg (Int.emod_nonneg _ (by decide))
  have h2 : (v % 4294967296).toNat < 4294967296 := by omega
  have h3 : (v % 4294967296).toNat % 256 ^ 4 % 4294967296 = (v % 4294967296).toNat := by
    omega
  rw [h3]
  split <;> omega

theorem doubles_length (vals : List F64) :
    (vals.map double_bytes).flatten.length = SIZEOF_DOUBLE * vals.length := by
  induction vals with
  | nil => rfl
  | cons v vs ih =>
    simp only [List.map_cons, List.flatten_cons, List.length_append, double_bytes_length, ih,
      List.length_cons, SIZEOF_DOUBLE]
    omega

theorem batch_bytes_length (batch : List F64) :
    (batch_bytes batch).length = SIZEOF_DOUBLE * batch.length + SIZEOF_INT := by
  simp only [batch_bytes, List.length_append, doubles_length, int_bytes_length]

/-! ## Lemmas on `pushed` -/

theorem pushed_nil (p : ScratchPad) : p.pushed [] = p := by
  simp [ScratchPad.pushed, memcpy_to_nil]

theorem push_eq_pushed (NUM_BYTES : Nat) (p : ScratchPad) (value : List Byte)
    (hcap : NUM_BYTES < SIZE_T_MOD) (hfit : p.m_offset + value.length ≤ NUM_BYTES) :
    p.push NUM_BYTES value = (.ok (), p.pushed value) :=
  push_eq_ok NUM_BYTES p value hcap hfit

theorem pushed_wellFormed (NUM_BYTES : Nat) (p : ScratchPad) (bs : List Byte)
    (hwf : p.WellFormed NUM_BYTES) (hfit : p.m_offset + bs.length ≤ NUM_BYTES) :
    (p.pushed bs).WellFormed NUM_BYTES :=
  push_wellFormed NUM_BYTES p bs hwf hfit

theorem pushed_pushed (NUM_BYTES : Nat) (p : ScratchPad) (a b : List Byte)
    (hwf : p.WellFormed NUM_BYTES) (hfit : p.m_offset + a.length ≤ NUM_BYTES) :
    (p.pushed a).pushed b = p.pushed (a ++ b) := by
  simp only [ScratchPad.pushed, List.length_append, Nat.add_assoc]
  rw [memcpy_to_append _ _ _ _ (by rw [hwf.2]; exact hfit)]

theorem pushed_held (NUM_BYTES : Nat) (p : ScratchPad) (bs : List Byte)
    (hwf : p.WellFormed NUM_BYTES) : (p.pushed bs).held = p.held ++ bs :=
  held_after_push NUM_BYTES p bs hwf

theorem pushed_offset (p : ScratchPad) (bs : List Byte) :
    (p.pushed bs).m_offset = p.m_offset + bs.length := rfl

theorem held_length (NUM_BYTES : Nat) (p : ScratchPad) (hwf : p.WellFormed NUM_BYTES) :
    p.held.length = p.m_offset := by
  have := hwf.1
  simp only [ScratchPad.held, List.length_take, hwf.2]
  omega

/-! ## Lemmas on `drain` -/

theorem drain_succ {σ α : Type} (step : σ → α × σ) (n : Nat) (s : σ) :
    drain step (n + 1) s =
      ((step s).1 :: (drain step n (step s).2).1, (drain step n (step s).2).2) := rfl

theorem drain_length {σ α : Type} (step : σ → α × σ) :
    ∀ (n : Nat) (s : σ), (drain step n s).1.length = n := by
  intro n
  induction n with
  | zero => intro s; rfl
  | succ n ih => intro s; simp [drain, ih]

theorem drain_add {σ α : Type} (step : σ → α × σ) :
    ∀ (m n : Nat) (s : σ),
      drain step (m + n) s =
        ((drain step m s).1 ++ (drain step n (drain step m s).2).1,
          (drain step n (drain step m s).2).2) := by
  intro m
  induction m with
  | zero => intro n s; simp [drain]
  | succ m ih =>
    intro n s
    rw [Nat.succ_add]
    simp only [drain, ih, List.cons_append]

/-! ## Lemmas on `produce` -/

theorem produce_batch_spec {σ τ : Type} (env : Env σ τ) :
    ∀ (n : Nat) (w : World σ τ), w.scratch_pad.WellFormed NUM_BYTES_DEFAULT →
      w.scratch_pad.m_offset + SIZEOF_DOUBLE * n ≤ NUM_BYTES_DEFAULT →
      produce_batch env n w =
        (.ok (),
          { w with
            scratch_pad := w.scratch_pad.pushed
              (((drain env.get_next_value n w.value_src).1.map double_bytes).flatten),
            value_src := (drain env.get_next_value n w.value_src).2 }) := by
  intro n
  induction n with
  | zero =>
    intro w _ _
    simp [produce_batch, drain, pushed_nil]
  | succ n ih =>
    intro w hwf hfit
    have hcap : NUM_BYTES_DEFAULT < SIZE_T_MOD := by decide
    have hlen := double_bytes_length (env.get_next_value w.value_src).1
    have hv : w.scratch_pad.m_offset + (double_bytes (env.get_next_value w.value_src).1).length
        ≤ NUM_BYTES_DEFAULT := by
      rw [hlen]; simp only [SIZEOF_DOUBLE] at hfit ⊢; omega
    simp only [produce_batch, push_eq_pushed _ _ _ hcap hv]
    rw [ih _ (pushed_wellFormed _ _ _ hwf hv)
      (by simp only [pushed_offset, hlen]; simp only [SIZEOF_DOUBLE] at hfit ⊢; omega)]
    simp only [drain, List.map_cons, List.flatten_cons]
    rw [pushed_pushed _ _ _ _ hwf hv]

theorem produce_loop_spec {σ τ : Type} (env : Env σ τ) :
    ∀ (batches : List (List F64)) (last : Int) (fuel : Nat) (w : World σ τ),
      w.scratch_pad.WellFormed NUM_BYTES_DEFAULT →
      (drain env.get_next_batch_size (batches.length + 1) w.batch_src).1
        = batches.map (fun b => (b.length : Int)) ++ [last] →
      last ≤ 0 → (∀ b ∈ batches, 0 < b.length) →
      (drain env.get_next_value batches.flatten.length w.value_src).1 = batches.flatten →
      w.scratch_pad.m_offset + (batches.map batch_bytes).flatten.length ≤ NUM_BYTES_DEFAULT →
      batches.length < fuel →
      produce_loop env fuel w =
        some (.ok (),
          { scratch_pad := w.scratch_pad.pushed (batches.map batch_bytes).flatten,
            batch_src := (drain env.get_next_batch_size (batches.length + 1) w.batch_src).2,
            value_src := (drain env.get_next_value batches.flatten.length w.value_src).2,
            published := w.published }) := by
  intro batches
  induction batches with
  | nil =>
    intro last fuel w _ hsizes hlast _ _ _ hfuel
    obtain ⟨fuel, rfl⟩ : ∃ f, fuel = f + 1 := ⟨fuel - 1, by simp at hfuel; omega⟩
    simp only [List.length_nil, drain, List.map_nil, List.nil_append, List.cons.injEq,
      and_true] at hsizes
    have hnot : ¬ (env.get_next_batch_size w.batch_src).1 > 0 := by rw [hsizes]; omega
    simp [produce_loop, hnot, drain, pushed_nil]
  | cons b bs ih =>
    intro last fuel w hwf hsizes hlast hpos hvals hfit hfuel
    obtain ⟨fuel, rfl⟩ : ∃ f, fuel = f + 1 := ⟨fuel - 1, by simp at hfuel; omega⟩
    have hcap : NUM_BYTES_DEFAULT < SIZE_T_MOD := by decide
    have hb : 0 < b.length := hpos b (List.mem_cons_self _ _)
    rw [List.length_cons, drain_succ] at hsizes
    simp only [List.map_cons, List.cons_append, List.cons.injEq] at hsizes
    obtain ⟨hhead, htail⟩ := hsizes
    simp only [List.flatten_cons, List.length_append] at hvals
    rw [drain_add] at hvals
    simp only at hvals
    obtain ⟨hvb, hvbs⟩ := List.append_inj hvals (by rw [drain_length])
    simp only [List.map_cons, List.flatten_cons, List.length_append, batch_bytes_length] at hfit
    have hfit1 : w.scratch_pad.m_offset + SIZEOF_DOUBLE * b.length ≤ NUM_BYTES_DEFAULT := by
      omega
    have hgt : (env.get_next_batch_size w.batch_src).1 > 0 := by rw [hhead]; omega
    have htoNat : (env.get_next_batch_size w.batch_src).1.toNat = b.length := by
      rw [hhead]; exact Int.toNat_ofNat _
    simp only [produce_loop, hgt, if_true, htoNat]
    have hb1 := produce_batch_spec env b.length
      { w with batch_src := (env.get_next_batch_size w.batch_src).2 } hwf hfit1
    simp only [hvb] at hb1
    rw [hb1]
    simp only
    have hwf1 := pushed_wellFormed _ w.scratch_pad (b.map double_bytes).flatten hwf
      (by rw [doubles_length]; exact hfit1)
    have hfit2 : (w.scratch_pad.pushed (b.map double_bytes).flatten).m_offset
        + (int_bytes (env.get_next_batch_size w.batch_src).1).length ≤ NUM_BYTES_DEFAULT := by
      rw [pushed_offset, doubles_length, int_bytes_length]; omega
    rw [push_eq_pushed _ _ _ hcap hfit2]
    simp only
    rw [pushed_pushed _ _ _ _ hwf (by rw [doubles_length]; exact hfit1), hhead]
    have hwf2 := pushed_wellFormed _ w.scratch_pad (batch_bytes b) hwf
      (by rw [batch_bytes_length]; omega)
    have hfit3 : w.scratch_pad.m_offset + (batch_bytes b).length ≤ NUM_BYTES_DEFAULT := by
      rw [batch_bytes_length]; omega
    rw [show (b.map double_bytes).flatten ++ int_bytes (b.length : Int) = batch_bytes b from rfl]
    rw [ih last fuel _ hwf2 htail hlast (fun x hx => hpos x (List.mem_cons_of_mem _ hx)) hvbs
      (by rw [pushed_offset, batch_bytes_length]; omega)
      (by simp only [List.length_cons] at hfuel; omega)]
    simp only [List.length_cons, List.map_cons, List.flatten_cons, List.length_append]
    rw [pushed_pushed _ _ _ _ hwf hfit3, drain_succ env.get_next_batch_size (bs.length + 1),
      drain_add env.get_next_value b.length]

theorem stream_bytes_length (batches : List (List F64)) :
    (stream_bytes batches).length = SIZEOF_INT + (batches.map batch_bytes).flatten.length := by
  simp only [stream_bytes, List.length_append, int_bytes_length]

theorem produce_spec {σ τ : Type} (env : Env σ τ) (batches : List (List F64)) (last : Int)
    (fuel : Nat) (w : World σ τ) (hwf : w.scratch_pad.WellFormed NUM_BYTES_DEFAULT)
    (hsizes : (drain env.get_next_batch_size (batches.length + 1) w.batch_src).1
      = batches.map (fun b => (b.length : Int)) ++ [last])
    (hlast : last ≤ 0) (hpos : ∀ b ∈ batches, 0 < b.length)
    (hvals : (drain env.get_next_value batches.flatten.length w.value_src).1 = batches.flatten)
    (hfit : w.scratch_pad.m_offset + (stream_bytes batches).length ≤ NUM_BYTES_DEFAULT)
    (hfuel : batches.length < fuel) :
    produce env fuel w =
      some (.ok (),
        { scratch_pad := w.scratch_pad.pushed (stream_bytes batches),
          batch_src := (drain env.get_next_batch_size (batches.length + 1) w.batch_src).2,
          value_src := (drain env.get_next_value batches.flatten.length w.value_src).2,
          published := w.published }) := by
  have hcap : NUM_BYTES_DEFAULT < SIZE_T_MOD := by decide
  rw [stream_bytes_length] at hfit
  have h0 : w.scratch_pad.m_offset + (int_bytes 0).length ≤ NUM_BYTES_DEFAULT := by
    rw [int_bytes_length]; omega
  simp only [produce, push_eq_pushed _ _ _ hcap h0]
  rw [produce_loop_spec env batches last fuel
    { w with scratch_pad := w.scratch_pad.pushed (int_bytes 0) }
    (pushed_wellFormed _ _ _ hwf h0) hsizes hlast hpos hvals
    (by simp only [pushed_offset, int_bytes_length]; omega) hfuel]
  simp only
  rw [pushed_pushed _ _ _ _ hwf h0]
  rfl

/-! ## Lemmas on `consume` -/

theorem consume_batch_spec {σ τ : Type} :
    ∀ (rvals : List F64) (sum : F64) (w : World σ τ) (pre : List Byte),
      w.scratch_pad.m_offset ≤ w.scratch_pad.m_buffer.length →
      w.scratch_pad.held = pre ++ (rvals.reverse.map double_bytes).flatten →
      consume_batch rvals.length sum w =
        (.ok (rvals.foldl f64_add sum),
          { w with scratch_pad := { w.scratch_pad with m_offset := pre.length } }) := by
  intro rvals
  induction rvals with
  | nil =>
    intro sum w pre hlen hheld
    have hoff : w.scratch_pad.m_offset = pre.length := by
      have := congrArg List.length hheld
      simp only [ScratchPad.held, List.length_take, List.reverse_nil, List.map_nil,
        List.flatten_nil, List.append_nil] at this
      omega
    simp [consume_batch, ← hoff]
  | cons v rvals ih =>
    intro sum w pre hlen hheld
    rw [List.reverse_cons, List.map_append, List.map_singleton, List.flatten_concat,
      ← List.append_assoc] at hheld
    have hle : (pre ++ (rvals.reverse.map double_bytes).flatten).length
        ≤ w.scratch_pad.m_offset := by
      have := congrArg List.length hheld
      simp only [ScratchPad.held, List.length_take, List.length_append] at this
      simp only [List.length_append]
      omega
    have hpop := pop_held w.scratch_pad _ (double_bytes v) hlen hheld
    rw [double_bytes_length] at hpop
    simp only [List.length_cons, consume_batch, hpop, double_of_bytes_double_bytes,
      List.foldl_cons]
    rw [ih (f64_add sum v) _ pre (by simp only; omega)
      (held_after_pop w.scratch_pad _ (double_bytes v) hheld)]

/-- Consuming the batches on top of what is held: after one iteration per batch
the loop continues from the state with those batches removed and their sums
published, last batch first. -/
theorem consume_batches {σ τ : Type} :
    ∀ (rbatches : List (List F64)) (fuel : Nat) (w : World σ τ) (pre : List Byte),
      w.scratch_pad.m_offset ≤ w.scratch_pad.m_buffer.length →
      w.scratch_pad.held = pre ++ (rbatches.reverse.map batch_bytes).flatten →
      (∀ b ∈ rbatches, 0 < b.length ∧ b.length < 2147483648) →
      consume (rbatches.length + fuel) w =
        consume fuel
          { w with
            scratch_pad := { w.scratch_pad with m_offset := pre.length },
            published := w.published ++ rbatches.map batch_sum } := by
  intro rbatches
  induction rbatches with
  | nil =>
    intro fuel w pre hlen hheld _
    have hoff : w.scratch_pad.m_offset = pre.length := by
      have := congrArg List.length hheld
      simp only [ScratchPad.held, List.length_take, List.reverse_nil, List.map_nil,
        List.flatten_nil, List.append_nil] at this
      omega
    simp [← hoff]
  | cons b rbs ih =>
    intro fuel w pre hlen hheld hsz
    obtain ⟨hb0, hb1⟩ := hsz b (List.mem_cons_self _ _)
    rw [List.reverse_cons, List.map_append, List.map_singleton, List.flatten_concat,
      ← List.append_assoc] at hheld
    have hheld1 : w.scratch_pad.held
        = ((pre ++ (rbs.reverse.map batch_bytes).flatten) ++ (b.map double_bytes).flatten)
          ++ int_bytes b.length := by
      rw [hheld, batch_bytes, List.append_assoc (pre ++ _)]
    have hlen1 := congrArg List.length hheld1
    simp only [ScratchPad.held, List.length_take, List.length_append] at hlen1
    have hpop := pop_held w.scratch_pad _ (int_bytes b.length) hlen hheld1
    rw [int_bytes_length] at hpop
    have hint : int_of_bytes (int_bytes (b.length : Int)) = (b.length : Int) :=
      int_of_bytes_int_bytes _ (by omega) (by omega)
    have hgt : (b.length : Int) > 0 := by omega
    have hheld2 := held_after_pop w.scratch_pad _ (int_bytes b.length) hheld1
    have hbatch := consume_batch_spec b.reverse F64_ZERO
      { w with scratch_pad := { w.scratch_pad with
          m_offset := ((pre ++ (rbs.reverse.map batch_bytes).flatten)
            ++ (b.map double_bytes).flatten).length } }
      (pre ++ (rbs.reverse.map batch_bytes).flatten)
      (by simp only [List.length_append] at hlen1 ⊢; omega)
      (by rw [List.reverse_reverse]; exact hheld2)
    rw [List.length_reverse] at hbatch
    rw [List.length_cons, Nat.add_right_comm]
    simp only [consume, hpop, hint, hgt, if_true, Int.toNat_ofNat, hbatch, publish]
    have hheld3 := held_after_pop
      ({ w.scratch_pad with
          m_offset := ((pre ++ (rbs.reverse.map batch_bytes).flatten)
            ++ (b.map double_bytes).flatten).length } : ScratchPad)
      (pre ++ (rbs.reverse.map batch_bytes).flatten) (b.map double_bytes).flatten hheld2
    rw [ih fuel _ pre (by simp only [List.length_append] at hlen1 ⊢; omega) hheld3
      (fun x hx => hsz x (List.mem_cons_of_mem _ hx))]
    simp only [List.map_cons, List.append_assoc, List.singleton_append, batch_sum]

theorem consume_spec {σ τ : Type} (batches : List (List F64)) (fuel : Nat) (w : World σ τ)
    (pre : List Byte) (hlen : w.scratch_pad.m_offset ≤ w.scratch_pad.m_buffer.length)
    (hheld : w.scratch_pad.held = pre ++ stream_bytes batches)
    (hsz : ∀ b ∈ batches, 0 < b.length ∧ b.length < 2147483648)
    (hfuel : batches.length < fuel) :
    consume fuel w =
      some (.ok (),
        { w with
          scratch_pad := { w.scratch_pad with m_offset := pre.length },
          published := w.published ++ batches.reverse.map batch_sum }) := by
  obtain ⟨f, rfl⟩ : ∃ f, fuel = batches.reverse.length + (f + 1) :=
    ⟨fuel - batches.length - 1, by rw [List.length_reverse]; omega⟩
  have hheld1 : w.scratch_pad.held
      = (pre ++ int_bytes 0) ++ (batches.reverse.reverse.map batch_bytes).flatten := by
    rw [hheld, stream_bytes, List.reverse_reverse, List.append_assoc]
  have hlen1 := congrArg List.length hheld1
  simp only [ScratchPad.held, List.length_take, List.length_append] at hlen1
  rw [consume_batches batches.reverse (f + 1) w (pre ++ int_bytes 0) hlen hheld1
    (fun b hb => hsz b (List.mem_reverse.mp hb))]
  have hheld2 := held_after_pop w.scratch_pad (pre ++ int_bytes 0) _ hheld1
  have hpop := pop_held
    ({ w.scratch_pad with m_offset := (pre ++ int_bytes 0).length } : ScratchPad)
    pre (int_bytes 0) (by simp only [List.length_append] at hlen1 ⊢; omega) hheld2
  rw [int_bytes_length] at hpop
  have hint : int_of_bytes (int_bytes 0) = 0 := by decide
  simp only [consume, hpop, hint, gt_iff_lt, Int.lt_irrefl, if_false]

/-! ## `produce` followed by `consume` -/

theorem batch_length_lt_of_fit (batches : List (List F64)) (n : Nat)
    (hfit : n + (stream_bytes batches).length ≤ NUM_BYTES_DEFAULT) :
    ∀ b ∈ batches, b.length < 2147483648 := by
  rw [stream_bytes_length] at hfit
  induction batches with
  | nil => intro b hb; simp at hb
  | cons a as ih =>
    intro b hb
    simp only [List.map_cons, List.flatten_cons, List.length_append, batch_bytes_length,
      SIZEOF_DOUBLE, SIZEOF_INT, NUM_BYTES_DEFAULT] at hfit
    rcases List.mem_cons.mp hb with h | h
    · rw [h]; omega
    · exact ih (by simp only [SIZEOF_INT, NUM_BYTES_DEFAULT]; omega) b h

theorem main_spec {σ τ : Type} (env : Env σ τ) (batches : List (List F64)) (last : Int)
    (fuel : Nat) (w : World σ τ) (hwf : w.scratch_pad.WellFormed NUM_BYTES_DEFAULT)
    (hdel : Delivers env w batches last)
    (hfit : w.scratch_pad.m_offset + (stream_bytes batches).length ≤ NUM_BYTES_DEFAULT)
    (hfuel : batches.length < fuel) :
    main env fuel w =
      some (.ok (),
        { scratch_pad :=
            { w.scratch_pad.pushed (stream_bytes batches) with
              m_offset := w.scratch_pad.m_offset },
          batch_src := (drain env.get_next_batch_size (batches.length + 1) w.batch_src).2,
          value_src := (drain env.get_next_value batches.flatten.length w.value_src).2,
          published := w.published ++ batches.reverse.map batch_sum }) := by
  obtain ⟨hsizes, hlast, hpos, hvals⟩ := hdel
  have hwf1 := pushed_wellFormed _ w.scratch_pad (stream_bytes batches) hwf hfit
  have hlt := batch_length_lt_of_fit batches _ hfit
  simp only [main, produce_spec env batches last fuel w hwf hsizes hlast hpos hvals hfit hfuel]
  rw [consume_spec batches fuel _ w.scratch_pad.held (by rw [hwf1.2]; exact hwf1.1)
    (pushed_held _ _ _ hwf) (fun b hb => ⟨hpos b hb, hlt b hb⟩) hfuel]
  simp only [held_length _ _ hwf]

theorem initial_world_wellFormed : initial_world.scratch_pad.WellFormed NUM_BYTES_DEFAULT :=
  ⟨Nat.zero_le _, List.length_replicate _ _⟩

theorem two_batch_world_wellFormed :
    two_batch_world.scratch_pad.WellFormed NUM_BYTES_DEFAULT :=
  ⟨Nat.zero_le _, List.length_replicate _ _⟩

theorem reference_delivers : Delivers reference_env initial_world reference_batches 0 := by
  refine ⟨by decide!, by decide, ?_, by decide!⟩
  intro b hb
  simp only [reference_batches, List.mem_cons, List.not_mem_nil, or_false] at hb
  rcases hb with h | h | h <;> subst h <;> decide

theorem two_batch_delivers :
    Delivers list_env two_batch_world [[F64_ONE], [F64_TWO, F64_THREE]] 0 := by
  refine ⟨by decide, by decide, ?_, by decide⟩
  intro b hb
  simp only [List.mem_cons, List.not_mem_nil, or_false] at hb
  rcases hb with h | h <;> subst h <;> decide

/-! ## Claims on `push` and `pop` -/

/-- C1: on a well-formed pad, pushing values `v1 .. vn` of any sizes whose total
size fits in `NUM_BYTES - m_offset` succeeds, and popping `n` times with the
sizes in reverse order then returns `vn, .., v1`, each equal byte for byte to
what was pushed. -/
theorem C1_push_all_pop_reversed (NUM_BYTES : Nat) (p : ScratchPad) (vs : List (List Byte))
    (hcap : NUM_BYTES < SIZE_T_MOD) (hwf : p.WellFormed NUM_BYTES)
    (hfit : (vs.map List.length).sum ≤ NUM_BYTES - p.m_offset) :
    ∃ p1, pushSeq NUM_BYTES p vs = (.ok (), p1) ∧
      popSeq p1 (vs.reverse.map List.length)
        = (.ok vs.reverse, { p1 with m_offset := p.m_offset }) := by
  have hoff := hwf.1
  have hfit1 : p.m_offset + vs.flatten.length ≤ NUM_BYTES := by
    rw [List.length_flatten]; omega
  refine ⟨_, pushSeq_eq_ok NUM_BYTES hcap vs p hwf hfit1, ?_⟩
  have hwf1 := push_wellFormed NUM_BYTES p vs.flatten hwf hfit1
  have hheld := held_after_push NUM_BYTES p vs.flatten hwf
  have hpre : p.held.length = p.m_offset := by
    simp only [ScratchPad.held, List.length_take, hwf.2]; omega
  have h := popSeq_held vs.reverse _ p.held (by rw [hwf1.2]; exact hwf1.1)
    (by rw [List.reverse_reverse]; exact hheld)
  rw [hpre] at h
  exact h

/-- C1 at an `int` followed by a `double` on a 16-byte pad holding two bytes. -/
theorem C1_push_all_pop_reversed_witness :
    (16 < SIZE_T_MOD ∧ example_pad.WellFormed 16 ∧
      (example_values.map List.length).sum ≤ 16 - example_pad.m_offset) ∧
    ∃ p1, pushSeq 16 example_pad example_values = (.ok (), p1) ∧
      popSeq p1 (example_values.reverse.map List.length)
        = (.ok example_values.reverse, { p1 with m_offset := example_pad.m_offset }) :=
  ⟨by decide, C1_push_all_pop_reversed 16 example_pad example_values
    (by decide) (by decide) (by decide)⟩

/-- C2: on a well-formed pad with `m_offset + sizeof(T) <= NUM_BYTES`, `push(value)`
succeeds and the `pop<T>()` that follows returns exactly the bytes of `value`,
with `m_offset` and every byte below it as before the push. -/
theorem C2_pop_after_push (NUM_BYTES : Nat) (p : ScratchPad) (value : List Byte)
    (hcap : NUM_BYTES < SIZE_T_MOD) (hwf : p.WellFormed NUM_BYTES)
    (hfit : p.m_offset + value.length ≤ NUM_BYTES) :
    ∃ p1 p2, p.push NUM_BYTES value = (.ok (), p1) ∧
      p1.pop value.length = (.ok value, p2) ∧
      p2.m_offset = p.m_offset ∧
      ∀ i, i < p.m_offset → p2.m_buffer[i]? = p.m_buffer[i]? := by
  have hoff : p.m_offset ≤ p.m_buffer.length := by rw [hwf.2]; exact hwf.1
  have hwf1 := push_wellFormed NUM_BYTES p value hwf hfit
  have hpre : p.held.length = p.m_offset := by
    simp only [ScratchPad.held, List.length_take]; omega
  have hpop := pop_held _ p.held value (by rw [hwf1.2]; exact hwf1.1)
    (held_after_push NUM_BYTES p value hwf)
  rw [hpre] at hpop
  refine ⟨_, _, push_eq_ok NUM_BYTES p value hcap hfit, hpop, rfl, ?_⟩
  intro i hi
  exact memcpy_to_getElem?_of_lt _ _ _ _ hoff hi

/-- C2 at the `int` 7 pushed on a 16-byte pad holding two bytes. -/
theorem C2_pop_after_push_witness :
    (16 < SIZE_T_MOD ∧ example_pad.WellFormed 16 ∧
      example_pad.m_offset + (int_bytes 7).length ≤ 16) ∧
    ∃ p1 p2, example_pad.push 16 (int_bytes 7) = (.ok (), p1) ∧
      p1.pop (int_bytes 7).length = (.ok (int_bytes 7), p2) ∧
      p2.m_offset = example_pad.m_offset ∧
      ∀ i, i < example_pad.m_offset → p2.m_buffer[i]? = example_pad.m_buffer[i]? :=
  ⟨by decide, C2_pop_after_push 16 example_pad (int_bytes 7)
    (by decide) (by decide) (by decide)⟩

/-- C3: on a well-formed pad, `push(value)` succeeds exactly when
`m_offset + sizeof(T) <= NUM_BYTES`; a failing push reports `Overflow` and leaves
the pad as it was; pushes that fill the pad to exactly `NUM_BYTES` succeed and
any further push of at least one byte then fails with `Overflow`. Sizes are
such that `NUM_BYTES + sizeof(T)` is representable in `size_t`. -/
theorem C3_push_capacity_check (NUM_BYTES : Nat) (p : ScratchPad)
    (hcap : NUM_BYTES < SIZE_T_MOD) (hwf : p.WellFormed NUM_BYTES) :
    (∀ value : List Byte, NUM_BYTES + value.length < SIZE_T_MOD →
      ((∃ p1, p.push NUM_BYTES value = (.ok (), p1))
        ↔ p.m_offset + value.length ≤ NUM_BYTES)) ∧
    (∀ value : List Byte, NUM_BYTES + value.length < SIZE_T_MOD →
      ¬ p.m_offset + value.length ≤ NUM_BYTES →
      p.push NUM_BYTES value = (.error .Overflow, p)) ∧
    (∀ vs : List (List Byte), p.m_offset + (vs.map List.length).sum = NUM_BYTES →
      ∃ p1, pushSeq NUM_BYTES p vs = (.ok (), p1) ∧ p1.m_offset = NUM_BYTES ∧
        ∀ value : List Byte, 1 ≤ value.length → NUM_BYTES + value.length < SIZE_T_MOD →
          p1.push NUM_BYTES value = (.error .Overflow, p1)) := by
  refine ⟨?_, ?_, ?_⟩
  · intro value hsz
    constructor
    · rintro ⟨p1, h⟩
      exact (push_ok_inv NUM_BYTES p p1 value hwf hsz h).1
    · intro hfit
      exact ⟨_, push_eq_ok NUM_BYTES p value hcap hfit⟩
  · intro value hsz hfit
    exact push_eq_error NUM_BYTES p value hwf hsz hfit
  · intro vs hsum
    have hfit1 : p.m_offset + vs.flatten.length ≤ NUM_BYTES := by
      rw [List.length_flatten]; omega
    have hwf1 := push_wellFormed NUM_BYTES p vs.flatten hwf hfit1
    refine ⟨_, pushSeq_eq_ok NUM_BYTES hcap vs p hwf hfit1, ?_, ?_⟩
    · simp only [List.length_flatten]; exact hsum
    · intro value h1 hsz
      apply push_eq_error NUM_BYTES _ value hwf1 hsz
      simp only [List.length_flatten]
      omega

/-- C3 on a 16-byte pad holding two bytes. -/
theorem C3_push_capacity_check_witness :
    (16 < SIZE_T_MOD ∧ example_pad.WellFormed 16) ∧
    (∃ p1, pushSeq 16 example_pad [int_bytes 7, double_bytes 0, [1, 2]] = (.ok (), p1) ∧
      p1.m_offset = 16 ∧ p1.push 16 [9] = (.error .Overflow, p1)) := by
  refine ⟨by decide, ?_⟩
  obtain ⟨p1, h1, h2, h3⟩ := (C3_push_capacity_check 16 example_pad (by decide) (by decide)).2.2
    [int_bytes 7, double_bytes 0, [1, 2]] (by decide)
  exact ⟨p1, h1, h2, h3 [9] (by decide) (by decide)⟩

/-- C4: `pop<T>()` succeeds exactly when `m_offset >= sizeof(T)`; on an empty pad
(`m_offset == 0`) a pop of any type, of size at least one byte, reports
`Underflow` and leaves the pad as it was; a pop of exactly `m_offset` bytes
succeeds and leaves `m_offset == 0`. -/
theorem C4_pop_underflow_check (p : ScratchPad) (sizeofT : Nat) :
    ((∃ v p1, p.pop sizeofT = (.ok v, p1)) ↔ p.m_offset ≥ sizeofT) ∧
    (p.m_offset = 0 → 1 ≤ sizeofT → p.pop sizeofT = (.error .Underflow, p)) ∧
    (sizeofT = p.m_offset →
      ∃ v, p.pop sizeofT = (.ok v, { p with m_offset := 0 })) := by
  refine ⟨⟨?_, ?_⟩, ?_, ?_⟩
  · rintro ⟨v, p1, h⟩
    exact (pop_ok_inv p p1 sizeofT v h).1
  · intro h
    exact ⟨_, _, pop_eq_ok p sizeofT h⟩
  · intro h0 h1
    exact pop_eq_error p sizeofT (by omega)
  · intro h
    refine ⟨memcpy_from p.m_buffer (p.m_offset - sizeofT) sizeofT, ?_⟩
    rw [pop_eq_ok p sizeofT (by omega), h, Nat.sub_self]

/-- C4 on a pad holding two bytes, popped as one two-byte value, and on the
emptied pad. -/
theorem C4_pop_underflow_check_witness :
    (∃ v, example_pad.pop 2 = (.ok v, { example_pad with m_offset := 0 })) ∧
    ScratchPad.pop { example_pad with m_offset := 0 } 4
      = (.error .Underflow, { example_pad with m_offset := 0 }) :=
  ⟨(C4_pop_underflow_check example_pad 2).2.2 (by decide),
   (C4_pop_underflow_check { example_pad with m_offset := 0 } 4).2.1 (by decide) (by decide)⟩

theorem runOps_wellFormed (NUM_BYTES : Nat) :
    ∀ (ops : List Op) (p p1 : ScratchPad), p.WellFormed NUM_BYTES →
      (∀ v, Op.push v ∈ ops → NUM_BYTES + v.length < SIZE_T_MOD) →
      runOps NUM_BYTES p ops = some p1 → p1.WellFormed NUM_BYTES := by
  intro ops
  induction ops with
  | nil =>
    intro p p1 hwf _ h
    simp only [runOps, Option.some.injEq] at h
    rw [← h]; exact hwf
  | cons op ops ih =>
    intro p p1 hwf hsz h
    have hsz1 : ∀ v, Op.push v ∈ ops → NUM_BYTES + v.length < SIZE_T_MOD :=
      fun v hv => hsz v (List.mem_cons_of_mem _ hv)
    cases op with
    | push value =>
      have hv := hsz value (List.mem_cons_self _ _)
      by_cases hfit : p.m_offset + value.length ≤ NUM_BYTES
      · simp only [runOps, push_eq_ok NUM_BYTES p value (by omega) hfit] at h
        exact ih _ p1 (push_wellFormed NUM_BYTES p value hwf hfit) hsz1 h
      · simp [runOps, push_eq_error NUM_BYTES p value hwf hv hfit] at h
    | pop sizeofT =>
      by_cases hfit : sizeofT ≤ p.m_offset
      · simp only [runOps, pop_eq_ok p sizeofT hfit] at h
        exact ih { p with m_offset := p.m_offset - sizeofT } p1
          ⟨Nat.le_trans (Nat.sub_le _ _) hwf.1, hwf.2⟩ hsz1 h
      · simp [runOps, pop_eq_error p sizeofT hfit] at h

theorem runOps_offset_sum (NUM_BYTES : Nat) :
    ∀ (ops : List Op) (p p1 : ScratchPad) (sizes held : List Nat), p.WellFormed NUM_BYTES →
      (∀ v, Op.push v ∈ ops → NUM_BYTES + v.length < SIZE_T_MOD) →
      runOps NUM_BYTES p ops = some p1 → heldSizes sizes ops = some held →
      p.m_offset = sizes.sum → p1.m_offset = held.sum := by
  intro ops
  induction ops with
  | nil =>
    intro p p1 sizes held _ _ h hh hs
    simp only [runOps, Option.some.injEq] at h
    simp only [heldSizes, Option.some.injEq] at hh
    rw [← h, ← hh]; exact hs
  | cons op ops ih =>
    intro p p1 sizes held hwf hsz h hh hs
    have hsz1 : ∀ v, Op.push v ∈ ops → NUM_BYTES + v.length < SIZE_T_MOD :=
      fun v hv => hsz v (List.mem_cons_of_mem _ hv)
    cases op with
    | push value =>
      have hv := hsz value (List.mem_cons_self _ _)
      by_cases hfit : p.m_offset + value.length ≤ NUM_BYTES
      · simp only [runOps, push_eq_ok NUM_BYTES p value (by omega) hfit] at h
        simp only [heldSizes] at hh
        refine ih _ p1 _ held (push_wellFormed NUM_BYTES p value hwf hfit) hsz1 h hh ?_
        simp only [List.sum_cons]
        omega
      · simp [runOps, push_eq_error NUM_BYTES p value hwf hv hfit] at h
    | pop sizeofT =>
      cases sizes with
      | nil => simp [heldSizes] at hh
      | cons n sizes =>
        by_cases hn : sizeofT = n
        · simp only [heldSizes, hn, if_true] at hh
          simp only [List.sum_cons] at hs
          have hfit : sizeofT ≤ p.m_offset := by omega
          simp only [runOps, pop_eq_ok p sizeofT hfit] at h
          refine ih { p with m_offset := p.m_offset - sizeofT } p1 _ held
            ⟨Nat.le_trans (Nat.sub_le _ _) hwf.1, hwf.2⟩ hsz1 h hh ?_
          show p.m_offset - sizeofT = sizes.sum
          omega
        · simp [heldSizes, hn] at hh

/-- C5: in every state reached from a fresh pad (`m_offset == 0`) by successful
pushes and pops, `m_offset <= NUM_BYTES`; a successful push (of a value of at
least one byte) strictly increases `m_offset`, a successful pop (of at least one
byte) strictly decreases it; and when the pops mirror the pushes, `m_offset` is
the sum of the sizes of the values pushed and not yet popped. -/
theorem C5_offset_invariant (NUM_BYTES : Nat) (buf : List Byte) (ops : List Op)
    (p : ScratchPad) (hbuf : buf.length = NUM_BYTES)
    (hsz : ∀ v, Op.push v ∈ ops → NUM_BYTES + v.length < SIZE_T_MOD)
    (hrun : runOps NUM_BYTES { m_offset := 0, m_buffer := buf } ops = some p) :
    p.m_offset ≤ NUM_BYTES ∧
    (∀ value p1, 1 ≤ value.length → NUM_BYTES + value.length < SIZE_T_MOD →
      p.push NUM_BYTES value = (.ok (), p1) → p.m_offset < p1.m_offset) ∧
    (∀ sizeofT v p1, 1 ≤ sizeofT →
      p.pop sizeofT = (.ok v, p1) → p1.m_offset < p.m_offset) ∧
    (∀ held, heldSizes [] ops = some held → p.m_offset = held.sum) := by
  have hwf0 : ScratchPad.WellFormed NUM_BYTES { m_offset := 0, m_buffer := buf } :=
    ⟨Nat.zero_le _, hbuf⟩
  have hwf := runOps_wellFormed NUM_BYTES ops _ p hwf0 hsz hrun
  refine ⟨hwf.1, ?_, ?_, ?_⟩
  · intro value p1 h1 hv h
    have := (push_ok_inv NUM_BYTES p p1 value hwf hv h).2
    rw [this]
    simp only
    omega
  · intro sizeofT v p1 h1 h
    obtain ⟨hle, _, hp1⟩ := pop_ok_inv p p1 sizeofT v h
    rw [hp1]
    simp only
    omega
  · intro held hh
    exact runOps_offset_sum NUM_BYTES ops _ p [] held hwf0 hsz hrun hh rfl

/-- C5 after pushing an `int` and a `double` and popping the `double`. -/
theorem C5_offset_invariant_witness :
    ∃ p, runOps 16 { m_offset := 0, m_buffer := example_pad.m_buffer }
        [.push (int_bytes 7), .push (double_bytes 0), .pop 8] = some p ∧
      p.m_offset ≤ 16 ∧ p.m_offset = [4].sum := by
  have hrun : runOps 16 { m_offset := 0, m_buffer := example_pad.m_buffer }
      [.push (int_bytes 7), .push (double_bytes 0), .pop 8]
      = some { m_offset := 4, m_buffer := memcpy_to (memcpy_to example_pad.m_buffer 0
          (int_bytes 7)) 4 (double_bytes 0) } := by decide
  have hsz : ∀ v, Op.push v ∈ [Op.push (int_bytes 7), .push (double_bytes 0), .pop 8] →
      16 + v.length < SIZE_T_MOD := by
    intro v hv
    simp only [List.mem_cons, Op.push.injEq, reduceCtorEq, List.not_mem_nil, or_false] at hv
    rcases hv with hv | hv <;> subst hv <;> decide
  have h := C5_offset_invariant 16 example_pad.m_buffer
    [.push (int_bytes 7), .push (double_bytes 0), .pop 8] _ (by decide) hsz hrun
  exact ⟨_, hrun, h.1, h.2.2.2 [4] (by decide)⟩

/-- C6: a successful `push(value)` stores the `sizeof(T)` bytes of `value` at
`m_buffer[m_offset .. m_offset + sizeof(T))`, advances `m_offset` by `sizeof(T)`
and changes no other byte; a successful `pop<T>()` lowers `m_offset` by
`sizeof(T)`, returns the `sizeof(T)` bytes at
`m_buffer[new m_offset .. new m_offset + sizeof(T))` and changes no byte. -/
theorem C6_push_pop_effect (NUM_BYTES : Nat) (p : ScratchPad) (hwf : p.WellFormed NUM_BYTES) :
    (∀ value p1, NUM_BYTES + value.length < SIZE_T_MOD →
      p.push NUM_BYTES value = (.ok (), p1) →
      p1.m_offset = p.m_offset + value.length ∧
      memcpy_from p1.m_buffer p.m_offset value.length = value ∧
      p1.m_buffer.length = p.m_buffer.length ∧
      ∀ i, i < p.m_offset ∨ p.m_offset + value.length ≤ i →
        p1.m_buffer[i]? = p.m_buffer[i]?) ∧
    (∀ sizeofT v p1, p.pop sizeofT = (.ok v, p1) →
      p1.m_offset = p.m_offset - sizeofT ∧ sizeofT ≤ p.m_offset ∧
      v = memcpy_from p.m_buffer p1.m_offset sizeofT ∧ v.length = sizeofT ∧
      p1.m_buffer = p.m_buffer) := by
  have hoff : p.m_offset ≤ p.m_buffer.length := by rw [hwf.2]; exact hwf.1
  constructor
  · intro value p1 hsz h
    obtain ⟨hfit, hp1⟩ := push_ok_inv NUM_BYTES p p1 value hwf hsz h
    subst hp1
    refine ⟨rfl, memcpy_from_to _ _ _ hoff, ?_, ?_⟩
    · exact memcpy_to_length _ _ _ (by rw [hwf.2]; exact hfit)
    · intro i hi
      rcases hi with hi | hi
      · exact memcpy_to_getElem?_of_lt _ _ _ _ hoff hi
      · exact memcpy_to_getElem?_of_ge _ _ _ _ hoff hi
  · intro sizeofT v p1 h
    obtain ⟨hle, hv, hp1⟩ := pop_ok_inv p p1 sizeofT v h
    subst hp1
    refine ⟨rfl, hle, hv, ?_, rfl⟩
    rw [hv]
    exact memcpy_from_length _ _ _ (by omega)

/-- C6 for the push of the `int` 7 on a 16-byte pad holding two bytes. -/
theorem C6_push_pop_effect_witness :
    example_pad.WellFormed 16 ∧
    ∃ p1, example_pad.push 16 (int_bytes 7) = (.ok (), p1) ∧ p1.m_offset = 2 + 4 ∧
      memcpy_from p1.m_buffer 2 4 = int_bytes 7 ∧ p1.m_buffer[1]? = some 34 ∧
      p1.m_buffer[6]? = some 0 := by
  have hpush : example_pad.push 16 (int_bytes 7)
      = (.ok (), { m_offset := 2 + 4, m_buffer := memcpy_to example_pad.m_buffer 2 (int_bytes 7) }) :=
    push_eq_ok 16 example_pad (int_bytes 7) (by decide) (by decide)
  have h := (C6_push_pop_effect 16 example_pad (by decide)).1 (int_bytes 7) _ (by decide) hpush
  exact ⟨by decide, _, hpush, h.1, h.2.1, (h.2.2.2 1 (by decide)).trans (by decide),
    (h.2.2.2 6 (by decide)).trans (by decide)⟩

/-! ## Claims on `produce` and `consume` -/

/-- C7: in the program as written the batch-size source yields `3, 2, 1, 0` and
the value source `1.0, .., 6.0`; `produce()` then `consume()` on the empty
1024-byte pad run to their end and publish exactly `6.0, 9.0, 6.0`, in that
order. -/
theorem C7_reference_scenario (fuel : Nat) (hfuel : 4 ≤ fuel) :
    (drain get_next_batch_size 4 initial_world.batch_src).1 = [3, 2, 1, 0] ∧
    (drain get_next_value 6 initial_world.value_src).1
      = [F64_ONE, F64_TWO, F64_THREE, F64_FOUR, F64_FIVE, F64_SIX] ∧
    initial_world.scratch_pad.m_offset = 0 ∧ initial_world.published = [] ∧
    ∃ w, main reference_env fuel initial_world = some (.ok (), w) ∧
      w.published = [F64_SIX, F64_NINE, F64_SIX] := by
  refine ⟨by decide, by decide!, rfl, rfl, _, main_spec reference_env reference_batches 0 fuel
    initial_world initial_world_wellFormed reference_delivers (by decide) hfuel, ?_⟩
  decide!

/-- C7 with four iterations allowed to each loop. -/
theorem C7_reference_scenario_witness :
    ∃ w, main reference_env 4 initial_world = some (.ok (), w) ∧
      w.published = [F64_SIX, F64_NINE, F64_SIX] :=
  (C7_reference_scenario 4 (by decide)).2.2.2.2

/-- C8 as stated fails: with the batches `[1.0]` and `[2.0, 3.0]` the run
publishes `5.0` first and `1.0` second, not the sums in production order. -/
theorem C8_counterexample :
    ∃ w, main list_env 3 two_batch_world = some (.ok (), w) ∧
      w.published = [F64_FIVE, F64_ONE] ∧
      w.published ≠ [[F64_ONE], [F64_TWO, F64_THREE]].map (List.foldl f64_add F64_ZERO) := by
  refine ⟨_, main_spec list_env [[F64_ONE], [F64_TWO, F64_THREE]] 0 3 two_batch_world
    two_batch_world_wellFormed two_batch_delivers (by decide) (by decide), ?_, ?_⟩
  · decide!
  · decide!

/-- C8, amended: when the sources deliver `n` batches of positive sizes whose
encoding fits the pad, `produce()` then `consume()` publish one sum per batch
in the reverse of the order of production: the `k`-th published value
(from 0) is the sum of batch `n - 1 - k`. -/
theorem C8_sums_published_last_batch_first {σ τ : Type} (env : Env σ τ)
    (batches : List (List F64)) (last : Int) (fuel : Nat) (w : World σ τ)
    (hwf : w.scratch_pad.WellFormed NUM_BYTES_DEFAULT) (hpub : w.published = [])
    (hdel : Delivers env w batches last)
    (hfit : w.scratch_pad.m_offset + (stream_bytes batches).length ≤ NUM_BYTES_DEFAULT)
    (hfuel : batches.length < fuel) :
    ∃ w1, main env fuel w = some (.ok (), w1) ∧
      w1.published.length = batches.length ∧
      ∀ k, k < batches.length →
        w1.published[k]? = (batches[batches.length - 1 - k]?).map batch_sum := by
  refine ⟨_, main_spec env batches last fuel w hwf hdel hfit hfuel, ?_, ?_⟩
  · simp [hpub]
  · intro k hk
    simp only [hpub, List.nil_append, List.getElem?_map]
    rw [List.getElem?_reverse hk]

/-- C8, amended, on the batches `[1.0]` and `[2.0, 3.0]`. -/
theorem C8_sums_published_last_batch_first_witness :
    ∃ w1, main list_env 3 two_batch_world = some (.ok (), w1) ∧
      w1.published.length = 2 ∧
      ∀ k, k < 2 →
        w1.published[k]?
          = ([[F64_ONE], [F64_TWO, F64_THREE]][2 - 1 - k]?).map batch_sum :=
  C8_sums_published_last_batch_first list_env [[F64_ONE], [F64_TWO, F64_THREE]] 0 3
    two_batch_world two_batch_world_wellFormed rfl two_batch_delivers (by decide) (by decide)

/-- C9: when the sources deliver batches of positive sizes whose encoding fits
the pad, `consume()` after `produce()` publishes the batches last produced
first, and the value published for a batch is `0.0` plus its elements taken
from the last pushed to the first pushed. -/
theorem C9_batches_consumed_in_reverse {σ τ : Type} (env : Env σ τ)
    (batches : List (List F64)) (last : Int) (fuel : Nat) (w : World σ τ)
    (hwf : w.scratch_pad.WellFormed NUM_BYTES_DEFAULT)
    (hdel : Delivers env w batches last)
    (hfit : w.scratch_pad.m_offset + (stream_bytes batches).length ≤ NUM_BYTES_DEFAULT)
    (hfuel : batches.length < fuel) :
    ∃ w1, main env fuel w = some (.ok (), w1) ∧
      w1.published
        = w.published ++ batches.reverse.map (fun b => b.reverse.foldl f64_add F64_ZERO) ∧
      ∀ b, batches.getLast? = some b →
        w1.published[w.published.length]? = some (b.reverse.foldl f64_add F64_ZERO) := by
  refine ⟨_, main_spec env batches last fuel w hwf hdel hfit hfuel, rfl, ?_⟩
  intro b hb
  simp only
  rw [List.getElem?_append_right (Nat.le_refl _), Nat.sub_self, List.getElem?_map,
    ← List.head?_eq_getElem?, List.head?_reverse, hb]
  rfl

/-- C9 on the reference run. -/
theorem C9_batches_consumed_in_reverse_witness :
    ∃ w1, main reference_env 4 initial_world = some (.ok (), w1) ∧
      w1.published
        = initial_world.published
          ++ reference_batches.reverse.map (fun b => b.reverse.foldl f64_add F64_ZERO) ∧
      ∀ b, reference_batches.getLast? = some b →
        w1.published[initial_world.published.length]?
          = some (b.reverse.foldl f64_add F64_ZERO) :=
  C9_batches_consumed_in_reverse reference_env reference_batches 0 4 initial_world
    initial_world_wellFormed reference_delivers (by decide) (by decide)

/-- C10 as stated fails: in the reference run `produce()` leaves 64 bytes whose
top four are the marker `1` of the last batch, so the last value pushed, which
is the first one `consume()` pops, is `1` and not the zero marker. -/
theorem C10_counterexample :
    ∃ w, produce reference_env 4 initial_world = some (.ok (), w) ∧
      w.scratch_pad.m_offset = 64 ∧
      ∃ p, w.scratch_pad.pop SIZEOF_INT = (.ok (int_bytes 1), p) ∧
        int_of_bytes (int_bytes 1) ≠ 0 := by
  obtain ⟨hsizes, hlast, hpos, hvals⟩ := reference_delivers
  refine ⟨_, produce_spec reference_env reference_batches 0 4 initial_world
    initial_world_wellFormed hsizes hlast hpos hvals (by decide) (by decide), by decide, ?_⟩
  have hwf1 := pushed_wellFormed _ initial_world.scratch_pad (stream_bytes reference_batches)
    initial_world_wellFormed (by decide)
  have hheld : (initial_world.scratch_pad.pushed (stream_bytes reference_batches)).held
      = (stream_bytes reference_batches).take 60 ++ int_bytes 1 := by
    rw [pushed_held _ _ _ initial_world_wellFormed]
    decide
  have hpop := pop_held _ _ _ (by rw [hwf1.2]; exact hwf1.1) hheld
  exact ⟨_, hpop, by decide⟩

/-- C10, amended: `produce()` pushes the marker `0` first, then for each batch
size `B > 0` obtained from the source `B` element values followed by the
marker `B`, and stops without pushing when it obtains `B <= 0`. The zero marker
is therefore the first value pushed; `consume()` reaches it after one loop
iteration per batch, pops it last and stops. -/
theorem C10_zero_marker_first_pushed_last_popped {σ τ : Type} (env : Env σ τ)
    (batches : List (List F64)) (last : Int) (fuel : Nat) (w : World σ τ)
    (hwf : w.scratch_pad.WellFormed NUM_BYTES_DEFAULT)
    (hdel : Delivers env w batches last)
    (hfit : w.scratch_pad.m_offset + (stream_bytes batches).length ≤ NUM_BYTES_DEFAULT)
    (hfuel : batches.length < fuel) :
    ∃ w1, produce env fuel w = some (.ok (), w1) ∧
      w1.scratch_pad.held
        = w.scratch_pad.held ++ (int_bytes 0 ++ (batches.map batch_bytes).flatten) ∧
      ∃ w2, (∀ f, consume (batches.length + f) w1 = consume f w2) ∧
        w2.scratch_pad.held = w.scratch_pad.held ++ int_bytes 0 ∧
        ∃ p, w2.scratch_pad.pop SIZEOF_INT = (.ok (int_bytes 0), p) ∧
          p.m_offset = w.scratch_pad.m_offset ∧
          ∀ f, consume (f + 1) w2 = some (.ok (), { w2 with scratch_pad := p }) := by
  obtain ⟨hsizes, hlast, hpos, hvals⟩ := hdel
  have hwf1 := pushed_wellFormed _ w.scratch_pad (stream_bytes batches) hwf hfit
  have hlt := batch_length_lt_of_fit batches _ hfit
  have hheld := pushed_held _ w.scratch_pad (stream_bytes batches) hwf
  have hheld1 : (w.scratch_pad.pushed (stream_bytes batches)).held
      = (w.scratch_pad.held ++ int_bytes 0)
        ++ (batches.reverse.reverse.map batch_bytes).flatten := by
    rw [hheld, stream_bytes, List.reverse_reverse, List.append_assoc]
  have hlen1 : (w.scratch_pad.pushed (stream_bytes batches)).m_offset
      ≤ (w.scratch_pad.pushed (stream_bytes batches)).m_buffer.length := by
    rw [hwf1.2]; exact hwf1.1
  have hheld2 := held_after_pop _ (w.scratch_pad.held ++ int_bytes 0) _ hheld1
  have hle : (w.scratch_pad.held ++ int_bytes 0).length
      ≤ (w.scratch_pad.pushed (stream_bytes batches)).m_offset := by
    simp only [List.length_append, held_length _ _ hwf, pushed_offset, stream_bytes_length,
      int_bytes_length]
    omega
  have hpop := pop_held
    ({ w.scratch_pad.pushed (stream_bytes batches) with
        m_offset := (w.scratch_pad.held ++ int_bytes 0).length } : ScratchPad)
    w.scratch_pad.held (int_bytes 0) (Nat.le_trans hle hlen1) hheld2
  rw [int_bytes_length] at hpop
  refine ⟨_, produce_spec env batches last fuel w hwf hsizes hlast hpos hvals hfit hfuel,
    hheld,
    ({ scratch_pad := { w.scratch_pad.pushed (stream_bytes batches) with
          m_offset := (w.scratch_pad.held ++ int_bytes 0).length },
       batch_src := (drain env.get_next_batch_size (batches.length + 1) w.batch_src).2,
       value_src := (drain env.get_next_value batches.flatten.length w.value_src).2,
       published := w.published ++ batches.reverse.map batch_sum } : World σ τ),
    ?_, hheld2, _, hpop, ?_, ?_⟩
  · intro f
    have h := consume_batches batches.reverse f
      ({ scratch_pad := w.scratch_pad.pushed (stream_bytes batches),
         batch_src := (drain env.get_next_batch_size (batches.length + 1) w.batch_src).2,
         value_src := (drain env.get_next_value batches.flatten.length w.value_src).2,
         published := w.published } : World σ τ)
      (w.scratch_pad.held ++ int_bytes 0) hlen1 hheld1
      (fun b hb => ⟨hpos b (List.mem_reverse.mp hb), hlt b (List.mem_reverse.mp hb)⟩)
    rw [List.length_reverse] at h
    exact h
  · exact held_length _ _ hwf
  · intro f
    have hint : int_of_bytes (int_bytes 0) = 0 := by decide
    simp only [consume, hpop, hint, gt_iff_lt, Int.lt_irrefl, if_false]

/-- C10, amended, on the reference run. -/
theorem C10_zero_marker_first_pushed_last_popped_witness :
    ∃ w1, produce reference_env 4 initial_world = some (.ok (), w1) ∧
      w1.scratch_pad.held
        = initial_world.scratch_pad.held
          ++ (int_bytes 0 ++ (reference_batches.map batch_bytes).flatten) ∧
      ∃ w2, (∀ f, consume (reference_batches.length + f) w1 = consume f w2) ∧
        w2.scratch_pad.held = initial_world.scratch_pad.held ++ int_bytes 0 ∧
        ∃ p, w2.scratch_pad.pop SIZEOF_INT = (.ok (int_bytes 0), p) ∧
          p.m_offset = initial_world.scratch_pad.m_offset ∧
          ∀ f, consume (f + 1) w2 = some (.ok (), { w2 with scratch_pad := p }) :=
  C10_zero_marker_first_pushed_last_popped reference_env reference_batches 0 4 initial_world
    initial_world_wellFormed reference_delivers (by decide) (by decide)

/-! ## Further claims on the pad and on the protocol -/

theorem stream_bytes_length_sum (batches : List (List F64)) :
    (stream_bytes batches).length
      = 4 + (batches.map (fun b => 8 * b.length + 4)).sum := by
  rw [stream_bytes_length]
  induction batches with
  | nil => rfl
  | cons b bs ih =>
    simp only [List.map_cons, List.flatten_cons, List.length_append, batch_bytes_length,
      List.sum_cons, SIZEOF_INT, SIZEOF_DOUBLE] at ih ⊢
    omega

/-- C11: when the sources deliver `k` batches of positive sizes `B1 .. Bk` and
then a non-positive size, and `4 + sum (8 * Bi + 4) <= 1024`, `produce()` on the
empty pad and then `consume()` both run to their end without a failing
assertion (no overflow, no underflow); `consume()` publishes exactly `k` values
and leaves `m_offset == 0`. -/
theorem C11_protocol_is_safe {σ τ : Type} (env : Env σ τ)
    (batches : List (List F64)) (last : Int) (fuel : Nat) (w : World σ τ)
    (hwf : w.scratch_pad.WellFormed NUM_BYTES_DEFAULT)
    (hempty : w.scratch_pad.m_offset = 0)
    (hdel : Delivers env w batches last)
    (hfit : 4 + (batches.map (fun b => 8 * b.length + 4)).sum ≤ NUM_BYTES_DEFAULT)
    (hfuel : batches.length < fuel) :
    ∃ w1 w2, produce env fuel w = some (.ok (), w1) ∧
      consume fuel w1 = some (.ok (), w2) ∧
      main env fuel w = some (.ok (), w2) ∧
      w2.published.length = w.published.length + batches.length ∧
      w2.scratch_pad.m_offset = 0 := by
  have hfit1 : w.scratch_pad.m_offset + (stream_bytes batches).length ≤ NUM_BYTES_DEFAULT := by
    rw [stream_bytes_length_sum, hempty]; omega
  have hmain := main_spec env batches last fuel w hwf hdel hfit1 hfuel
  obtain ⟨hsizes, hlast, hpos, hvals⟩ := hdel
  have hprod := produce_spec env batches last fuel w hwf hsizes hlast hpos hvals hfit1 hfuel
  refine ⟨_, _, hprod, ?_, hmain, ?_, hempty⟩
  · simp only [main, hprod] at hmain
    exact hmain
  · simp

/-- C11 on the reference run. -/
theorem C11_protocol_is_safe_witness :
    ∃ w1 w2, produce reference_env 4 initial_world = some (.ok (), w1) ∧
      consume 4 w1 = some (.ok (), w2) ∧
      main reference_env 4 initial_world = some (.ok (), w2) ∧
      w2.published.length = initial_world.published.length + reference_batches.length ∧
      w2.scratch_pad.m_offset = 0 :=
  C11_protocol_is_safe reference_env reference_batches 0 4 initial_world
    initial_world_wellFormed rfl reference_delivers (by decide) (by decide)

theorem pushSeq_ok_inv (NUM_BYTES : Nat) :
    ∀ (vs : List (List Byte)) (p p1 : ScratchPad), p.WellFormed NUM_BYTES →
      (∀ v ∈ vs, NUM_BYTES + v.length < SIZE_T_MOD) →
      pushSeq NUM_BYTES p vs = (.ok (), p1) →
      p.m_offset + vs.flatten.length ≤ NUM_BYTES ∧ p1 = p.pushed vs.flatten := by
  intro vs
  induction vs with
  | nil =>
    intro p p1 hwf _ h
    simp only [pushSeq, Prod.mk.injEq, true_and] at h
    simp only [List.flatten_nil, List.length_nil, Nat.add_zero, pushed_nil]
    exact ⟨hwf.1, h.symm⟩
  | cons v vs ih =>
    intro p p1 hwf hsz h
    have hv := hsz v (List.mem_cons_self _ _)
    by_cases hfit : p.m_offset + v.length ≤ NUM_BYTES
    · simp only [pushSeq, push_eq_pushed NUM_BYTES p v (by omega) hfit] at h
      obtain ⟨h1, h2⟩ := ih (p.pushed v) p1 (pushed_wellFormed _ _ _ hwf hfit)
        (fun x hx => hsz x (List.mem_cons_of_mem _ hx)) h
      rw [pushed_pushed _ _ _ _ hwf hfit] at h2
      rw [pushed_offset] at h1
      simp only [List.flatten_cons, List.length_append]
      exact ⟨by omega, h2⟩
    · simp only [pushSeq, push_eq_error NUM_BYTES p v hwf hv hfit] at h
      exact absurd (Prod.mk.inj h).1 (by simp)

/-- C12: after successful pushes of `v1 .. vn` on an empty pad, the held bytes
`m_buffer[0 .. m_offset)` are exactly `v1 ++ v2 ++ .. ++ vn`, with nothing in
between; a pop of `sizeof(T) <= m_offset` bytes returns the last `sizeof(T)`
bytes of that concatenation whatever the sizes of the pushed values were, so
after pushing `a` then `b` one pop of `sizeof(a) + sizeof(b)` bytes returns
`a ++ b`. -/
theorem C12_held_is_concatenation (NUM_BYTES : Nat) (buf : List Byte)
    (vs : List (List Byte)) (p1 : ScratchPad) (hbuf : buf.length = NUM_BYTES)
    (hsz : ∀ v ∈ vs, NUM_BYTES + v.length < SIZE_T_MOD)
    (hpush : pushSeq NUM_BYTES { m_offset := 0, m_buffer := buf } vs = (.ok (), p1)) :
    p1.m_offset = vs.flatten.length ∧
    p1.m_buffer.take p1.m_offset = vs.flatten ∧
    (∀ sizeofT, sizeofT ≤ p1.m_offset →
      p1.pop sizeofT
        = (.ok (vs.flatten.drop (vs.flatten.length - sizeofT)),
            { p1 with m_offset := p1.m_offset - sizeofT })) ∧
    (∀ a b, vs = [a, b] →
      p1.pop (a.length + b.length) = (.ok (a ++ b), { p1 with m_offset := 0 })) := by
  have hwf0 : ScratchPad.WellFormed NUM_BYTES { m_offset := 0, m_buffer := buf } :=
    ⟨Nat.zero_le _, hbuf⟩
  obtain ⟨hfit, hp1⟩ := pushSeq_ok_inv NUM_BYTES vs _ p1 hwf0 hsz hpush
  have hwf1 := pushed_wellFormed NUM_BYTES _ vs.flatten hwf0 hfit
  rw [← hp1] at hwf1
  have hoff : p1.m_offset = vs.flatten.length := by
    rw [hp1, pushed_offset]; simp
  have hheld : p1.held = vs.flatten := by
    rw [hp1, pushed_held NUM_BYTES _ _ hwf0]; rfl
  have hlen : p1.m_offset ≤ p1.m_buffer.length := by rw [hwf1.2]; exact hwf1.1
  have hpop : ∀ sizeofT, sizeofT ≤ p1.m_offset →
      p1.pop sizeofT
        = (.ok (vs.flatten.drop (vs.flatten.length - sizeofT)),
            { p1 with m_offset := p1.m_offset - sizeofT }) := by
    intro sizeofT hle
    have hsplit : p1.held = vs.flatten.take (vs.flatten.length - sizeofT)
        ++ vs.flatten.drop (vs.flatten.length - sizeofT) := by
      rw [hheld, List.take_append_drop]
    have h := pop_held p1 _ _ hlen hsplit
    have e1 : (vs.flatten.drop (vs.flatten.length - sizeofT)).length = sizeofT := by
      rw [List.length_drop]; omega
    have e2 : (vs.flatten.take (vs.flatten.length - sizeofT)).length
        = p1.m_offset - sizeofT := by
      rw [List.length_take]; omega
    rw [e1, e2] at h
    exact h
  refine ⟨hoff, hheld, hpop, ?_⟩
  intro a b hab
  have hfl : vs.flatten = a ++ b := by rw [hab]; simp
  have h := hpop (a.length + b.length) (by rw [hoff, hfl, List.length_append])
  rw [hfl, List.length_append, Nat.sub_self, List.drop_zero] at h
  rw [h, hoff, hfl, List.length_append, Nat.sub_self]

/-- C12 for two four-byte values popped as one eight-byte value. -/
theorem C12_held_is_concatenation_witness :
    ∃ p1, pushSeq 16 { m_offset := 0, m_buffer := example_pad.m_buffer }
        [int_bytes 7, int_bytes 9] = (.ok (), p1) ∧
      p1.m_buffer.take p1.m_offset = int_bytes 7 ++ int_bytes 9 ∧
      p1.pop 8 = (.ok (int_bytes 7 ++ int_bytes 9), { p1 with m_offset := 0 }) := by
  have hpush := pushSeq_eq_ok 16 (by decide) [int_bytes 7, int_bytes 9]
    { m_offset := 0, m_buffer := example_pad.m_buffer } (by decide) (by decide)
  have hsz : ∀ v ∈ [int_bytes 7, int_bytes 9], 16 + v.length < SIZE_T_MOD := by
    intro v hv
    simp only [List.mem_cons, List.not_mem_nil, or_false] at hv
    rcases hv with hv | hv <;> subst hv <;> decide
  have h := C12_held_is_concatenation 16 example_pad.m_buffer [int_bytes 7, int_bytes 9] _
    (by decide) hsz hpush
  exact ⟨_, hpush, h.2.1, h.2.2.2 _ _ rfl⟩

theorem memcpy_to_from_self (buf : List Byte) (off n : Nat) (h : off + n ≤ buf.length) :
    memcpy_to buf off (memcpy_from buf off n) = buf := by
  have hl := memcpy_from_length buf off n h
  unfold memcpy_to
  rw [hl]
  unfold memcpy_from
  rw [List.append_assoc, ← List.drop_drop, List.take_append_drop,
    List.take_append_drop]

/-- C13: on a well-formed pad with `m_offset >= sizeof(T)`, `pop<T>()` succeeds
and pushing the returned value straight back succeeds and yields exactly the
pad before the pop: the same `m_offset` and the same `m_buffer`, byte for
byte. -/
theorem C13_push_after_pop_restores (NUM_BYTES : Nat) (p : ScratchPad) (sizeofT : Nat)
    (hcap : NUM_BYTES < SIZE_T_MOD) (hwf : p.WellFormed NUM_BYTES)
    (hle : sizeofT ≤ p.m_offset) :
    ∃ v p1, p.pop sizeofT = (.ok v, p1) ∧ p1.push NUM_BYTES v = (.ok (), p) := by
  have hoff := hwf.1
  have hbuf := hwf.2
  have hl := memcpy_from_length p.m_buffer (p.m_offset - sizeofT) sizeofT (by omega)
  refine ⟨_, _, pop_eq_ok p sizeofT hle, ?_⟩
  rw [push_eq_ok NUM_BYTES _ _ hcap (by simp only [hl]; omega)]
  simp only [hl, memcpy_to_from_self _ _ _ (show p.m_offset - sizeofT + sizeofT ≤ p.m_buffer.length
    by omega), Nat.sub_add_cancel hle]

/-- C13 on a 16-byte pad holding two bytes, popped as one two-byte value. -/
theorem C13_push_after_pop_restores_witness :
    (16 < SIZE_T_MOD ∧ example_pad.WellFormed 16 ∧ 2 ≤ example_pad.m_offset) ∧
    ∃ v p1, example_pad.pop 2 = (.ok v, p1) ∧ p1.push 16 v = (.ok (), example_pad) :=
  ⟨by decide, C13_push_after_pop_restores 16 example_pad 2 (by decide) (by decide) (by decide)⟩

/-! ## Lemmas on the blocked reorder -/

theorem copy_block_length {α : Type} (dst : List α) (d : Nat) (src : List α) (s n : Nat)
    (hd : d + n ≤ dst.length) (hs : s + n ≤ src.length) :
    (copy_block dst d src s n).length = dst.length := by
  simp only [copy_block, List.length_append, List.length_take, List.length_drop]
  omega

theorem copy_block_zero {α : Type} (dst : List α) (d : Nat) (src : List α) (s : Nat) :
    copy_block dst d src s 0 = dst := by
  simp [copy_block]

theorem copy_block_set {α : Type} (dst : List α) (d : Nat) (src : List α) (s j : Nat) (f : α)
    (hd : d + j < dst.length) (hf : src[s + j]? = some f) :
    (copy_block dst d src s j).set (d + j) f = copy_block dst d src s (j + 1) := by
  have hs : s + j < src.length := by
    rcases Nat.lt_or_ge (s + j) src.length with h | h
    · exact h
    · rw [List.getElem?_eq_none h] at hf; exact absurd hf (by simp)
  have hlen : (dst.take d ++ (src.drop s).take j).length = d + j := by
    simp only [List.length_append, List.length_take, List.length_drop]
    omega
  have hget : (src.drop s)[j]? = some f := by rw [List.getElem?_drop]; exact hf
  unfold copy_block
  rw [List.set_append_right _ _ (by rw [hlen]), hlen, Nat.sub_self,
    List.drop_eq_getElem_cons hd, List.set_cons_zero, List.take_succ, hget]
  simp only [Option.toList, List.append_assoc, List.singleton_append, Nat.add_assoc]

theorem copy_block_getElem? {α : Type} (dst : List α) (d : Nat) (src : List α) (s n k : Nat)
    (hd : d + n ≤ dst.length) (hs : s + n ≤ src.length) :
    (copy_block dst d src s n)[k]?
      = if d ≤ k ∧ k < d + n then src[s + (k - d)]? else dst[k]? := by
  have hl1 : (dst.take d).length = d := by rw [List.length_take]; omega
  have hl2 : ((src.drop s).take n).length = n := by
    rw [List.length_take, List.length_drop]; omega
  unfold copy_block
  by_cases h1 : k < d
  · rw [if_neg (by omega), List.append_assoc,
      List.getElem?_append_left (by rw [hl1]; exact h1), List.getElem?_take_of_lt h1]
  · by_cases h2 : k < d + n
    · rw [if_pos ⟨by omega, h2⟩, List.append_assoc,
        List.getElem?_append_right (by rw [hl1]; omega), hl1,
        List.getElem?_append_left (by rw [hl2]; omega),
        List.getElem?_take_of_lt (by omega), List.getElem?_drop]
    · rw [if_neg (by omega), List.getElem?_append_right
        (by rw [List.length_append, hl1, hl2]; omega), List.length_append, hl1, hl2,
        List.getElem?_drop]
      congr 1
      omega

theorem getD_eq_of_getElem? {α : Type} (l : List α) (i : Nat) (x d : α) (h : l[i]? = some x) :
    l.getD i d = x := by
  simp [List.getD, h]

theorem getElem?_eq_getD {α : Type} (l : List α) (i : Nat) (d : α) (h : i < l.length) :
    l[i]? = some (l.getD i d) := by
  simp [List.getD, List.getElem?_eq_getElem h]

/-- The element loop on a block that lies within both arrays copies the block:
started after `j` elements have been copied, it ends with all of them copied. -/
theorem naive_elems_spec (a : Arrays) (b : Nat) (size src_start dst_start : U32)
    (hsize : a.block_sizes[b]? = some size)
    (hsrc : a.src_block_starts[b]? = some src_start)
    (hdst : a.dst_block_starts[b]? = some dst_start)
    (hs : src_start.val + size.val ≤ a.src.length)
    (hd : dst_start.val + size.val ≤ a.dst.length)
    (hsw : src_start.val + size.val ≤ UINT32_MOD)
    (hdw : dst_start.val + size.val ≤ UINT32_MOD) :
    ∀ (fuel j : Nat), j ≤ size.val → size.val - j < fuel →
      naive_elems b fuel j
          { a with dst := copy_block a.dst dst_start.val a.src src_start.val j }
        = some (.ok
          { a with dst := copy_block a.dst dst_start.val a.src src_start.val size.val }) := by
  intro fuel
  induction fuel with
  | zero => intro j _ h; omega
  | succ fuel ih =>
    intro j hj hfuel
    by_cases hlt : j < size.val
    · have hsm : (src_start.val + j) % UINT32_MOD = src_start.val + j :=
        Nat.mod_eq_of_lt (by omega)
      have hdm : (dst_start.val + j) % UINT32_MOD = dst_start.val + j :=
        Nat.mod_eq_of_lt (by omega)
      have hlen := copy_block_length a.dst dst_start.val a.src src_start.val j
        (by omega) (by omega)
      have hsj : src_start.val + j < a.src.length := by omega
      have hread : a.src[src_start.val + j]? = some (a.src[src_start.val + j]) :=
        List.getElem?_eq_getElem hsj
      simp only [naive_elems, hsize, hsrc, hdst, hlt, if_true, hsm, hdm, hread, hlen,
        show dst_start.val + j < a.dst.length by omega]
      rw [copy_block_set _ _ _ _ _ _ (by omega) hread]
      exact ih (j + 1) (by omega) (by omega)
    · have hj' : j = size.val := by omega
      subst hj'
      simp only [naive_elems, hsize, Nat.lt_irrefl, if_false]

theorem naive_elems_block (a : Arrays) (b fuel : Nat)
    (hb : b < a.src_block_starts.length ∧ b < a.dst_block_starts.length
      ∧ b < a.block_sizes.length)
    (hs : a.srcStart b + a.blockSize b ≤ a.src.length)
    (hd : a.dstStart b + a.blockSize b ≤ a.dst.length)
    (hsw : a.srcStart b + a.blockSize b ≤ UINT32_MOD)
    (hdw : a.dstStart b + a.blockSize b ≤ UINT32_MOD)
    (hfuel : a.blockSize b < fuel) :
    naive_elems b fuel 0 a
      = some (.ok { a with
          dst := copy_block a.dst (a.dstStart b) a.src (a.srcStart b) (a.blockSize b) }) := by
  have h := naive_elems_spec a b (a.block_sizes.getD b 0) (a.src_block_starts.getD b 0)
    (a.dst_block_starts.getD b 0) (getElem?_eq_getD _ _ _ hb.2.2) (getElem?_eq_getD _ _ _ hb.1)
    (getElem?_eq_getD _ _ _ hb.2.1) hs hd hsw hdw fuel 0 (Nat.zero_le _) (by
      show a.blockSize b - 0 < fuel
      omega)
  rw [copy_block_zero] at h
  exact h

theorem memcpy_blocks_step (a : Arrays) (b n : Nat)
    (hb : b < a.src_block_starts.length ∧ b < a.dst_block_starts.length
      ∧ b < a.block_sizes.length)
    (hs : a.srcStart b + a.blockSize b ≤ a.src.length)
    (hd : a.dstStart b + a.blockSize b ≤ a.dst.length) :
    memcpy_blocks (n + 1) b a
      = memcpy_blocks n (b + 1) { a with
          dst := copy_block a.dst (a.dstStart b) a.src (a.srcStart b) (a.blockSize b) } := by
  have hlt : a.blockSize b < 4294967296 := (a.block_sizes.getD b 0).isLt
  have hbytes : a.blockSize b * SIZEOF_FLOAT % SIZE_T_MOD / SIZEOF_FLOAT = a.blockSize b := by
    simp only [SIZEOF_FLOAT, SIZE_T_MOD]
    omega
  have hcopy : memcpy_floats a.dst (a.dstStart b) a.src (a.srcStart b)
      (a.blockSize b * SIZEOF_FLOAT % SIZE_T_MOD)
      = .ok (copy_block a.dst (a.dstStart b) a.src (a.srcStart b) (a.blockSize b)) := by
    simp only [memcpy_floats, hbytes, hs, hd, and_self, if_true]
  simp only [memcpy_blocks, getElem?_eq_getD _ _ (0 : U32) hb.1,
    getElem?_eq_getD _ _ (0 : U32) hb.2.1, getElem?_eq_getD _ _ (0 : U32) hb.2.2]
  have hcopy1 : memcpy_floats a.dst (a.dst_block_starts.getD b 0).val a.src
      (a.src_block_starts.getD b 0).val
      ((a.block_sizes.getD b 0).val * SIZEOF_FLOAT % SIZE_T_MOD)
      = .ok (copy_block a.dst (a.dstStart b) a.src (a.srcStart b) (a.blockSize b)) := hcopy
  rw [hcopy1]

/-- On blocks that lie within the arrays, the element loops do what the
`memcpy` calls do. -/
theorem naive_blocks_eq_memcpy_blocks (a : Arrays) (fuel : Nat) :
    ∀ (n i : Nat) (dst1 : List F32), dst1.length = a.dst.length →
      (i + n ≤ a.src_block_starts.length ∧ i + n ≤ a.dst_block_starts.length
        ∧ i + n ≤ a.block_sizes.length) →
      (∀ b, i ≤ b → b < i + n →
        a.srcStart b + a.blockSize b ≤ a.src.length ∧
        a.dstStart b + a.blockSize b ≤ a.dst.length ∧
        a.srcStart b + a.blockSize b ≤ UINT32_MOD ∧
        a.dstStart b + a.blockSize b ≤ UINT32_MOD) →
      (∀ b, i ≤ b → b < i + n → a.blockSize b < fuel) →
      naive_blocks fuel n i { a with dst := dst1 }
        = some (memcpy_blocks n i { a with dst := dst1 }) := by
  intro n
  induction n with
  | zero => intro i dst1 _ _ _ _; rfl
  | succ n ih =>
    intro i dst1 hlen hidx hw hfuel
    obtain ⟨h1, h2, h3, h4⟩ := hw i (Nat.le_refl _) (by omega)
    have hb : i < a.src_block_starts.length ∧ i < a.dst_block_starts.length
        ∧ i < a.block_sizes.length := ⟨by omega, by omega, by omega⟩
    have hstep : naive_elems i fuel 0 { a with dst := dst1 }
        = some (.ok { a with
            dst := copy_block dst1 (a.dstStart i) a.src (a.srcStart i) (a.blockSize i) }) :=
      naive_elems_block { a with dst := dst1 } i fuel hb h1
        (by show a.dstStart i + a.blockSize i ≤ dst1.length; omega) h3 h4
        (hfuel i (Nat.le_refl _) (by omega))
    have hmem : memcpy_blocks (n + 1) i { a with dst := dst1 }
        = memcpy_blocks n (i + 1) { a with
            dst := copy_block dst1 (a.dstStart i) a.src (a.srcStart i) (a.blockSize i) } :=
      memcpy_blocks_step { a with dst := dst1 } i n hb h1
        (by show a.dstStart i + a.blockSize i ≤ dst1.length; omega)
    rw [hmem]
    simp only [naive_blocks, hstep]
    exact ih (i + 1) _
      (by rw [copy_block_length _ _ _ _ _ (by omega) h1]; exact hlen)
      (by omega) (fun b hb1 hb2 => hw b (by omega) (by omega))
      (fun b hb1 hb2 => hfuel b (by omega) (by omega))

/-- What the `memcpy` loop leaves in `dst`: elements outside every block are as
before, and when the destination ranges are pairwise disjoint each block of
`dst` holds its block of `src`. -/
theorem memcpy_blocks_spec (a : Arrays) :
    ∀ (n i : Nat) (dst1 : List F32), dst1.length = a.dst.length →
      (i + n ≤ a.src_block_starts.length ∧ i + n ≤ a.dst_block_starts.length
        ∧ i + n ≤ a.block_sizes.length) →
      (∀ b, i ≤ b → b < i + n →
        a.srcStart b + a.blockSize b ≤ a.src.length ∧
        a.dstStart b + a.blockSize b ≤ a.dst.length) →
      ∃ dst2, memcpy_blocks n i { a with dst := dst1 } = .ok { a with dst := dst2 } ∧
        dst2.length = a.dst.length ∧
        (∀ k, (∀ b, i ≤ b → b < i + n →
            ¬ (a.dstStart b ≤ k ∧ k < a.dstStart b + a.blockSize b)) →
          dst2[k]? = dst1[k]?) ∧
        ((∀ b, i ≤ b → b < i + n → ∀ c, i ≤ c → c < i + n → b ≠ c →
            a.dstStart b + a.blockSize b ≤ a.dstStart c
              ∨ a.dstStart c + a.blockSize c ≤ a.dstStart b) →
          ∀ b, i ≤ b → b < i + n → ∀ e, e < a.blockSize b →
            dst2[a.dstStart b + e]? = a.src[a.srcStart b + e]?) := by
  intro n
  induction n with
  | zero =>
    intro i dst1 hlen _ _
    exact ⟨dst1, rfl, hlen, fun _ _ => rfl, fun _ b h1 h2 => by omega⟩
  | succ n ih =>
    intro i dst1 hlen hidx hw
    obtain ⟨h1, h2⟩ := hw i (Nat.le_refl _) (by omega)
    have hb : i < a.src_block_starts.length ∧ i < a.dst_block_starts.length
        ∧ i < a.block_sizes.length := ⟨by omega, by omega, by omega⟩
    have h2' : a.dstStart i + a.blockSize i ≤ dst1.length := by omega
    have hmem : memcpy_blocks (n + 1) i { a with dst := dst1 }
        = memcpy_blocks n (i + 1) { a with
            dst := copy_block dst1 (a.dstStart i) a.src (a.srcStart i) (a.blockSize i) } :=
      memcpy_blocks_step { a with dst := dst1 } i n hb h1 h2'
    have hget := fun k => copy_block_getElem? dst1 (a.dstStart i) a.src (a.srcStart i)
      (a.blockSize i) k h2' h1
    obtain ⟨dst2, hrun, hlen2, hout, hcopy⟩ := ih (i + 1)
      (copy_block dst1 (a.dstStart i) a.src (a.srcStart i) (a.blockSize i))
      (by rw [copy_block_length _ _ _ _ _ h2' h1]; exact hlen)
      (by omega) (fun b hb1 hb2 => hw b (by omega) (by omega))
    refine ⟨dst2, ?_, hlen2, ?_, ?_⟩
    · rw [hmem]; exact hrun
    · intro k hk
      rw [hout k (fun b hb1 hb2 => hk b (by omega) (by omega)), hget k,
        if_neg (hk i (Nat.le_refl _) (by omega))]
    · intro hdisj b hb1 hb2 e he
      rcases Nat.eq_or_lt_of_le hb1 with hbi | hbi
      · subst hbi
        rw [hout _ (fun c hc1 hc2 => by
            have := hdisj i (Nat.le_refl _) (by omega) c (by omega) (by omega) (by omega)
            omega),
          hget, if_pos ⟨by omega, by omega⟩]
        congr 2
        omega
      · exact hcopy
          (fun x hx1 hx2 c hc1 hc2 hne =>
            hdisj x (by omega) (by omega) c (by omega) (by omega) hne)
          b (by omega) (by omega) e he

/-! ## Lemmas on the blocked reorder on raw pointers -/

theorem copy_at_zero (mem : Nat → F32) (dst src : Nat) : copy_at mem dst src 0 = mem := by
  funext a
  simp only [copy_at]
  rw [if_neg (by omega)]

theorem copy_at_of_not_mem (mem : Nat → F32) (dst src n a : Nat)
    (h : ¬ (dst ≤ a ∧ a < dst + n)) : copy_at mem dst src n a = mem a := by
  simp only [copy_at]
  rw [if_neg h]

theorem copy_at_of_mem (mem : Nat → F32) (dst src n e : Nat) (h : e < n) :
    copy_at mem dst src n (dst + e) = mem (src + e) := by
  simp only [copy_at]
  rw [if_pos ⟨by omega, by omega⟩, Nat.add_sub_cancel_left]

/-- Storing element `j` of the source range after the first `j` elements have
been copied gives the first `j + 1` elements copied, when the two ranges share
no address. -/
theorem copy_at_step (mem : Nat → F32) (dst ds src ss n j : Nat) (hj : j < n)
    (hdis : src + ss + n ≤ dst + ds ∨ dst + ds + n ≤ src + ss) :
    (fun a => if a = dst + (ds + j) then copy_at mem (dst + ds) (src + ss) j (src + (ss + j))
        else copy_at mem (dst + ds) (src + ss) j a)
      = copy_at mem (dst + ds) (src + ss) (j + 1) := by
  funext a
  have hread : copy_at mem (dst + ds) (src + ss) j (src + (ss + j)) = mem (src + (ss + j)) :=
    copy_at_of_not_mem _ _ _ _ _ (by omega)
  rw [hread]
  by_cases ha : a = dst + (ds + j)
  · rw [if_pos ha, ha, ← Nat.add_assoc dst ds j, copy_at_of_mem _ _ _ _ _ (Nat.lt_succ_self j),
      Nat.add_assoc]
  · rw [if_neg ha]
    simp only [copy_at]
    by_cases hin : dst + ds ≤ a ∧ a < dst + ds + j
    · rw [if_pos hin, if_pos ⟨hin.1, by omega⟩]
    · rw [if_neg hin, if_neg (by omega)]

/-- The element loop on raw pointers copies the block, when the block's source
and destination ranges share no address and its indices do not wrap. -/
theorem naive_elems_ptr_spec (h : Heap) (src dst b : Nat) (size src_start dst_start : U32)
    (hsize : h.block_sizes[b]? = some size)
    (hsrc : h.src_block_starts[b]? = some src_start)
    (hdst : h.dst_block_starts[b]? = some dst_start)
    (hsw : src_start.val + size.val ≤ UINT32_MOD)
    (hdw : dst_start.val + size.val ≤ UINT32_MOD)
    (hdis : src + src_start.val + size.val ≤ dst + dst_start.val
      ∨ dst + dst_start.val + size.val ≤ src + src_start.val) :
    ∀ (fuel j : Nat), j ≤ size.val → size.val - j < fuel →
      naive_elems_ptr src dst b fuel j
          { h with floats := copy_at h.floats (dst + dst_start.val) (src + src_start.val) j }
        = some (.ok
          { h with
            floats := copy_at h.floats (dst + dst_start.val) (src + src_start.val) size.val }) := by
  intro fuel
  induction fuel with
  | zero => intro j _ hf; omega
  | succ fuel ih =>
    intro j hj hfuel
    by_cases hlt : j < size.val
    · have hsm : (src_start.val + j) % UINT32_MOD = src_start.val + j :=
        Nat.mod_eq_of_lt (by omega)
      have hdm : (dst_start.val + j) % UINT32_MOD = dst_start.val + j :=
        Nat.mod_eq_of_lt (by omega)
      simp only [naive_elems_ptr, hsize, hsrc, hdst, hlt, if_true, hsm, hdm]
      rw [copy_at_step h.floats dst dst_start.val src src_start.val size.val j hlt hdis]
      exact ih (j + 1) (by omega) (by omega)
    · have hj' : j = size.val := by omega
      subst hj'
      simp only [naive_elems_ptr, hsize, Nat.lt_irrefl, if_false]

theorem naive_elems_ptr_block (h : Heap) (src dst b fuel : Nat)
    (hb : b < h.src_block_starts.length ∧ b < h.dst_block_starts.length
      ∧ b < h.block_sizes.length)
    (hsw : h.srcStart b + h.blockSize b ≤ UINT32_MOD)
    (hdw : h.dstStart b + h.blockSize b ≤ UINT32_MOD)
    (hdis : src + h.srcStart b + h.blockSize b ≤ dst + h.dstStart b
      ∨ dst + h.dstStart b + h.blockSize b ≤ src + h.srcStart b)
    (hfuel : h.blockSize b < fuel) :
    naive_elems_ptr src dst b fuel 0 h
      = some (.ok { h with
          floats := copy_at h.floats (dst + h.dstStart b) (src + h.srcStart b)
            (h.blockSize b) }) := by
  have hspec := naive_elems_ptr_spec h src dst b (h.block_sizes.getD b 0)
    (h.src_block_starts.getD b 0) (h.dst_block_starts.getD b 0)
    (getElem?_eq_getD _ _ _ hb.2.2) (getElem?_eq_getD _ _ _ hb.1)
    (getElem?_eq_getD _ _ _ hb.2.1) hsw hdw hdis fuel 0 (Nat.zero_le _) (by
      show h.blockSize b - 0 < fuel
      omega)
  rw [copy_at_zero] at hspec
  exact hspec

/-- What the block loop on raw pointers leaves in memory, for distinct arrays
and indices that do not wrap: every address outside the destination ranges
holds what it held, and when these ranges are pairwise disjoint each holds its
block of `src`. -/
theorem naive_blocks_ptr_spec (h : Heap) (fuel src dst src_len dst_len : Nat)
    (hsep : Separate src src_len dst dst_len) :
    ∀ (n i : Nat) (mem : Nat → F32),
      (i + n ≤ h.src_block_starts.length ∧ i + n ≤ h.dst_block_starts.length
        ∧ i + n ≤ h.block_sizes.length) →
      (∀ b, i ≤ b → b < i + n →
        h.srcStart b + h.blockSize b ≤ src_len ∧ h.dstStart b + h.blockSize b ≤ dst_len ∧
        h.srcStart b + h.blockSize b ≤ UINT32_MOD ∧
        h.dstStart b + h.blockSize b ≤ UINT32_MOD) →
      (∀ b, i ≤ b → b < i + n → h.blockSize b < fuel) →
      ∃ mem2, naive_blocks_ptr fuel src dst n i { h with floats := mem }
          = some (.ok { h with floats := mem2 }) ∧
        (∀ a, (∀ b, i ≤ b → b < i + n →
            ¬ (dst + h.dstStart b ≤ a ∧ a < dst + h.dstStart b + h.blockSize b)) →
          mem2 a = mem a) ∧
        ((∀ b, i ≤ b → b < i + n → ∀ c, i ≤ c → c < i + n → b ≠ c →
            h.blockSize b = 0 ∨ h.blockSize c = 0 ∨
            h.dstStart b + h.blockSize b ≤ h.dstStart c
              ∨ h.dstStart c + h.blockSize c ≤ h.dstStart b) →
          ∀ b, i ≤ b → b < i + n → ∀ e, e < h.blockSize b →
            mem2 (dst + (h.dstStart b + e)) = mem (src + (h.srcStart b + e))) := by
  intro n
  induction n with
  | zero =>
    intro i mem _ _ _
    exact ⟨mem, rfl, fun _ _ => rfl, fun _ b h1 h2 => by omega⟩
  | succ n ih =>
    intro i mem hidx hw hfuel
    obtain ⟨h1, h2, h3, h4⟩ := hw i (Nat.le_refl _) (by omega)
    have hb : i < h.src_block_starts.length ∧ i < h.dst_block_starts.length
        ∧ i < h.block_sizes.length := ⟨by omega, by omega, by omega⟩
    have hdis : src + h.srcStart i + h.blockSize i ≤ dst + h.dstStart i
        ∨ dst + h.dstStart i + h.blockSize i ≤ src + h.srcStart i := by
      rcases hsep with hs | hs
      · left; omega
      · right; omega
    have hstep : naive_elems_ptr src dst i fuel 0 { h with floats := mem }
        = some (.ok { h with
            floats := copy_at mem (dst + h.dstStart i) (src + h.srcStart i)
              (h.blockSize i) }) :=
      naive_elems_ptr_block { h with floats := mem } src dst i fuel hb h3 h4 hdis
        (hfuel i (Nat.le_refl _) (by omega))
    obtain ⟨mem2, hrun, hout, hcopy⟩ := ih (i + 1)
      (copy_at mem (dst + h.dstStart i) (src + h.srcStart i) (h.blockSize i))
      (by omega) (fun b hb1 hb2 => hw b (by omega) (by omega))
      (fun b hb1 hb2 => hfuel b (by omega) (by omega))
    refine ⟨mem2, ?_, ?_, ?_⟩
    · simp only [naive_blocks_ptr, hstep]
      exact hrun
    · intro a ha
      rw [hout a (fun b hb1 hb2 => ha b (by omega) (by omega)),
        copy_at_of_not_mem _ _ _ _ _ (ha i (Nat.le_refl _) (by omega))]
    · intro hdisj b hb1 hb2 e he
      rcases Nat.eq_or_lt_of_le hb1 with hbi | hbi
      · subst hbi
        rw [hout _ (fun c hc1 hc2 => by
            have := hdisj i (Nat.le_refl _) (by omega) c (by omega) (by omega) (by omega)
            omega),
          ← Nat.add_assoc, copy_at_of_mem _ _ _ _ _ he, Nat.add_assoc]
      · rw [hcopy
          (fun x hx1 hx2 c hc1 hc2 hne =>
            hdisj x (by omega) (by omega) c (by omega) (by omega) hne)
          b (by omega) (by omega) e he]
        obtain ⟨hb3, _, _, _⟩ := hw b (by omega) hb2
        apply copy_at_of_not_mem
        rcases hsep with hs | hs <;> omega

/-- The two embeddings of `blocked_reorder_naive` agree on distinct arrays: when
memory holds `src` at address `src_at` and `dst` at address `dst_at`, apart
from each other, the run on raw pointers and the run on the arrays end
normally with the same elements in `dst` and in `src`. -/
theorem naive_blocks_ptr_agrees (a : Arrays) (fuel src_at dst_at : Nat)
    (hsep : Separate src_at a.src.length dst_at a.dst.length) :
    ∀ (n i : Nat) (dst1 : List F32) (mem : Nat → F32), dst1.length = a.dst.length →
      (∀ k, k < a.src.length → a.src[k]? = some (mem (src_at + k))) →
      (∀ k, k < a.dst.length → dst1[k]? = some (mem (dst_at + k))) →
      (i + n ≤ a.src_block_starts.length ∧ i + n ≤ a.dst_block_starts.length
        ∧ i + n ≤ a.block_sizes.length) →
      (∀ b, i ≤ b → b < i + n →
        a.srcStart b + a.blockSize b ≤ a.src.length ∧
        a.dstStart b + a.blockSize b ≤ a.dst.length ∧
        a.srcStart b + a.blockSize b ≤ UINT32_MOD ∧
        a.dstStart b + a.blockSize b ≤ UINT32_MOD) →
      (∀ b, i ≤ b → b < i + n → a.blockSize b < fuel) →
      ∃ dst2 mem2,
        naive_blocks fuel n i { a with dst := dst1 } = some (.ok { a with dst := dst2 }) ∧
        naive_blocks_ptr fuel src_at dst_at n i
            { floats := mem, src_block_starts := a.src_block_starts,
              dst_block_starts := a.dst_block_starts, block_sizes := a.block_sizes }
          = some (.ok
            { floats := mem2, src_block_starts := a.src_block_starts,
              dst_block_starts := a.dst_block_starts, block_sizes := a.block_sizes }) ∧
        dst2.length = a.dst.length ∧
        (∀ k, k < a.src.length → a.src[k]? = some (mem2 (src_at + k))) ∧
        (∀ k, k < a.dst.length → dst2[k]? = some (mem2 (dst_at + k))) := by
  intro n
  induction n with
  | zero =>
    intro i dst1 mem hlen hs hd _ _ _
    exact ⟨dst1, mem, rfl, rfl, hlen, hs, hd⟩
  | succ n ih =>
    intro i dst1 mem hlen hs hd hidx hw hfuel
    obtain ⟨h1, h2, h3, h4⟩ := hw i (Nat.le_refl _) (by omega)
    have hb : i < a.src_block_starts.length ∧ i < a.dst_block_starts.length
        ∧ i < a.block_sizes.length := ⟨by omega, by omega, by omega⟩
    have h2' : a.dstStart i + a.blockSize i ≤ dst1.length := by omega
    have hstepA : naive_elems i fuel 0 { a with dst := dst1 }
        = some (.ok { a with
            dst := copy_block dst1 (a.dstStart i) a.src (a.srcStart i) (a.blockSize i) }) :=
      naive_elems_block { a with dst := dst1 } i fuel hb h1 h2' h3 h4
        (hfuel i (Nat.le_refl _) (by omega))
    have hdis : src_at + a.srcStart i + a.blockSize i ≤ dst_at + a.dstStart i
        ∨ dst_at + a.dstStart i + a.blockSize i ≤ src_at + a.srcStart i := by
      rcases hsep with hsp | hsp
      · left; omega
      · right; omega
    have hstepP : naive_elems_ptr src_at dst_at i fuel 0
          { floats := mem, src_block_starts := a.src_block_starts,
            dst_block_starts := a.dst_block_starts, block_sizes := a.block_sizes }
        = some (.ok
          { floats := copy_at mem (dst_at + a.dstStart i) (src_at + a.srcStart i)
              (a.blockSize i),
            src_block_starts := a.src_block_starts,
            dst_block_starts := a.dst_block_starts, block_sizes := a.block_sizes }) :=
      naive_elems_ptr_block
        { floats := mem, src_block_starts := a.src_block_starts,
          dst_block_starts := a.dst_block_starts, block_sizes := a.block_sizes }
        src_at dst_at i fuel hb h3 h4 hdis (hfuel i (Nat.le_refl _) (by omega))
    obtain ⟨dst2, mem2, hrunA, hrunP, hlen2, hs2, hd2⟩ := ih (i + 1)
      (copy_block dst1 (a.dstStart i) a.src (a.srcStart i) (a.blockSize i))
      (copy_at mem (dst_at + a.dstStart i) (src_at + a.srcStart i) (a.blockSize i))
      (by rw [copy_block_length _ _ _ _ _ h2' h1]; exact hlen)
      (by
        intro k hk
        rw [hs k hk, copy_at_of_not_mem _ _ _ _ _ (by rcases hsep with hsp | hsp <;> omega)])
      (by
        intro k hk
        rw [copy_block_getElem? _ _ _ _ _ _ h2' h1]
        by_cases hin : a.dstStart i ≤ k ∧ k < a.dstStart i + a.blockSize i
        · rw [if_pos hin, hs _ (by omega)]
          have hk' : dst_at + k = dst_at + a.dstStart i + (k - a.dstStart i) := by omega
          rw [hk', copy_at_of_mem _ _ _ _ _ (by omega)]
          congr 2
          omega
        · rw [if_neg hin, hd k hk, copy_at_of_not_mem _ _ _ _ _ (by omega)])
      (by omega) (fun b hb1 hb2 => hw b (by omega) (by omega))
      (fun b hb1 hb2 => hfuel b (by omega) (by omega))
    refine ⟨dst2, mem2, ?_, ?_, hlen2, hs2, hd2⟩
    · simp only [naive_blocks, hstepA]
      exact hrunA
    · simp only [naive_blocks_ptr, hstepP]
      exact hrunP

/-- The agreement of the two embeddings for the whole call, from a memory that
holds the two arrays apart from each other. -/
theorem blocked_reorder_naive_ptr_agrees (a : Arrays) (fuel src_at dst_at : Nat)
    (num_blocks : U32) (mem : Nat → F32)
    (hsep : Separate src_at a.src.length dst_at a.dst.length)
    (hs : ∀ k, k < a.src.length → a.src[k]? = some (mem (src_at + k)))
    (hd : ∀ k, k < a.dst.length → a.dst[k]? = some (mem (dst_at + k)))
    (hwithin : a.BlocksWithin num_blocks.val)
    (hfuel : ∀ b, b < num_blocks.val → a.blockSize b < fuel) :
    ∃ a1 h1, blocked_reorder_naive fuel a num_blocks = some (.ok a1) ∧
      blocked_reorder_naive_ptr fuel src_at dst_at
          { floats := mem, src_block_starts := a.src_block_starts,
            dst_block_starts := a.dst_block_starts, block_sizes := a.block_sizes }
          num_blocks = some (.ok h1) ∧
      (∀ k, k < a.src.length → a1.src[k]? = some (h1.floats (src_at + k))) ∧
      (∀ k, k < a.dst.length → a1.dst[k]? = some (h1.floats (dst_at + k))) := by
  obtain ⟨⟨hi1, hi2, hi3⟩, hw⟩ := hwithin
  obtain ⟨dst2, mem2, hrunA, hrunP, _, hs2, hd2⟩ :=
    naive_blocks_ptr_agrees a fuel src_at dst_at hsep num_blocks.val 0 a.dst mem rfl hs hd
      ⟨by omega, by omega, by omega⟩ (fun b _ hb => hw b (by omega))
      (fun b _ hb => hfuel b (by omega))
  exact ⟨{ a with dst := dst2 }, _, hrunA, hrunP, hs2, hd2⟩

/-! ## Claims on the blocked reorder -/

/-- C14 as stated fails, in two ways. (1) With a `src` of `2^32 + 1` elements
and a block of two elements starting at index `2^32 - 1`, every condition of
the claim holds, yet the `uint32_t` index wraps and `dst[1]` receives `src[0]`
(`0.0f`), not `src[2^32]` (`1.0f`). (2) With `src` and `dst` the same
three-element array and one block moved up by one place, every condition of
the claim holds, yet `src[1]` is changed from `11` to `10`. -/
theorem C14_counterexample :
    (wrapping_heap.BlocksInBounds 4294967297 2 1 ∧ wrapping_heap.DstBlocksDisjoint 1 ∧
      Separate 0 4294967297 4294967297 2 ∧
      float_after (blocked_reorder_naive_ptr 3 0 4294967297 wrapping_heap 1)
          (4294967297 + (wrapping_heap.dstStart 0 + 1)) = some 0 ∧
      float_after (blocked_reorder_naive_ptr 3 0 4294967297 wrapping_heap 1)
          (0 + (wrapping_heap.srcStart 0 + 1)) = some 1065353216) ∧
    (aliased_heap.BlocksInBounds 3 3 1 ∧ aliased_heap.DstBlocksDisjoint 1 ∧
      aliased_heap.floats (0 + 1) = 11 ∧
      float_after (blocked_reorder_naive_ptr 3 0 0 aliased_heap 1) (0 + 1) = some 10) := by
  decide

/-- C14, amended: when `src` and `dst` are distinct arrays, each of the
`num_blocks` blocks lies within the bounds of `src` and of `dst` at indices
that do not reach `2^32`, and the destination blocks are pairwise disjoint,
`blocked_reorder_naive` runs to its end and afterwards
`dst[dst_block_starts[b] + e] == src[src_block_starts[b] + e]` for every block
`b` and every `e < block_sizes[b]`, every element of `dst` outside all
destination blocks is as it was, and `src` and the three index arrays are as
they were. -/
theorem C14_naive_copies_blocks_of_distinct_arrays (h : Heap)
    (fuel src dst src_len dst_len : Nat) (num_blocks : U32)
    (hsep : Separate src src_len dst dst_len)
    (hin : h.BlocksInBounds src_len dst_len num_blocks.val)
    (hwrap : h.NoWrap num_blocks.val)
    (hdisj : h.DstBlocksDisjoint num_blocks.val)
    (hfuel : ∀ b, b < num_blocks.val → h.blockSize b < fuel) :
    ∃ h1, blocked_reorder_naive_ptr fuel src dst h num_blocks = some (.ok h1) ∧
      (∀ b, b < num_blocks.val → ∀ e, e < h.blockSize b →
        h1.floats (dst + (h.dstStart b + e)) = h1.floats (src + (h.srcStart b + e))) ∧
      (∀ k, k < dst_len → ¬ h.InDstBlock num_blocks.val k →
        h1.floats (dst + k) = h.floats (dst + k)) ∧
      (∀ k, k < src_len → h1.floats (src + k) = h.floats (src + k)) ∧
      h1.src_block_starts = h.src_block_starts ∧
      h1.dst_block_starts = h.dst_block_starts ∧ h1.block_sizes = h.block_sizes := by
  obtain ⟨⟨hi1, hi2, hi3⟩, hw⟩ := hin
  obtain ⟨mem2, hrun, hout, hcopy⟩ := naive_blocks_ptr_spec h fuel src dst src_len dst_len
    hsep num_blocks.val 0 h.floats ⟨by omega, by omega, by omega⟩
    (fun b _ hb => ⟨(hw b (by omega)).1, (hw b (by omega)).2, (hwrap b (by omega)).1,
      (hwrap b (by omega)).2⟩)
    (fun b _ hb => hfuel b (by omega))
  have hrun1 : naive_blocks_ptr fuel src dst num_blocks.val 0 h
      = some (.ok { h with floats := mem2 }) := hrun
  have hsrc : ∀ k, k < src_len → mem2 (src + k) = h.floats (src + k) := by
    intro k hk
    apply hout
    intro b _ hb
    have := (hw b (by omega)).2
    rcases hsep with hs | hs <;> omega
  refine ⟨{ h with floats := mem2 }, hrun1, ?_, ?_, hsrc, rfl, rfl, rfl⟩
  · intro b hb e he
    have hb1 := (hw b hb).1
    show mem2 (dst + (h.dstStart b + e)) = mem2 (src + (h.srcStart b + e))
    rw [hsrc (h.srcStart b + e) (by omega)]
    exact hcopy (fun x _ hx c _ hc hne => hdisj x (by omega) c (by omega) hne)
      b (Nat.zero_le _) (by omega) e he
  · intro k _ hk
    apply hout
    intro b _ hb hin
    exact hk ⟨b, by omega, by omega, by omega⟩

/-- C14, amended, on an 8-element `src` at address 0 and an 8-element `dst` at
address 8, with an empty block inside the range of another. -/
theorem C14_naive_copies_blocks_of_distinct_arrays_witness :
    (Separate 0 8 8 8 ∧ example_heap.BlocksInBounds 8 8 3 ∧ example_heap.NoWrap 3 ∧
      example_heap.DstBlocksDisjoint 3) ∧
    ∃ h1, blocked_reorder_naive_ptr 4 0 8 example_heap 3 = some (.ok h1) ∧
      (∀ b, b < 3 → ∀ e, e < example_heap.blockSize b →
        h1.floats (8 + (example_heap.dstStart b + e))
          = h1.floats (0 + (example_heap.srcStart b + e))) ∧
      (∀ k, k < 8 → ¬ example_heap.InDstBlock 3 k →
        h1.floats (8 + k) = example_heap.floats (8 + k)) ∧
      (∀ k, k < 8 → h1.floats (0 + k) = example_heap.floats (0 + k)) ∧
      h1.src_block_starts = example_heap.src_block_starts ∧
      h1.dst_block_starts = example_heap.dst_block_starts ∧
      h1.block_sizes = example_heap.block_sizes :=
  ⟨by decide, C14_naive_copies_blocks_of_distinct_arrays example_heap 4 0 8 8 8 3
    (by decide) (by decide) (by decide) (by decide) (by decide)⟩

/-- C15: on distinct arrays, when each of the `num_blocks` blocks lies within
`src` and within `dst` at indices that 32-bit arithmetic reaches without
wrapping, `blocked_reorder_naive` and `blocked_reorder_memcpy` both run to
their end and leave the same arrays, whether or not destination ranges overlap
and whether or not some blocks are empty. -/
theorem C15_naive_equals_memcpy (a : Arrays) (num_blocks : U32) (fuel : Nat)
    (hwithin : a.BlocksWithin num_blocks.val)
    (hfuel : ∀ b, b < num_blocks.val → a.blockSize b < fuel) :
    ∃ a1, blocked_reorder_naive fuel a num_blocks = some (.ok a1) ∧
      blocked_reorder_memcpy a num_blocks = .ok a1 := by
  obtain ⟨⟨hi1, hi2, hi3⟩, hw⟩ := hwithin
  have hnaive : naive_blocks fuel num_blocks.val 0 a
      = some (memcpy_blocks num_blocks.val 0 a) :=
    naive_blocks_eq_memcpy_blocks a fuel num_blocks.val 0 a.dst rfl
      ⟨by omega, by omega, by omega⟩ (fun b _ hb => hw b (by omega))
      (fun b _ hb => hfuel b (by omega))
  obtain ⟨dst2, hrun, _⟩ := memcpy_blocks_spec a num_blocks.val 0 a.dst rfl
    ⟨by omega, by omega, by omega⟩
    (fun b _ hb => ⟨(hw b (by omega)).1, (hw b (by omega)).2.1⟩)
  have hrun1 : memcpy_blocks num_blocks.val 0 a = .ok { a with dst := dst2 } := hrun
  exact ⟨{ a with dst := dst2 }, by rw [blocked_reorder_naive, hnaive, hrun1], hrun1⟩

/-- C15 on two blocks with overlapping destination ranges and one empty
block. -/
theorem C15_naive_equals_memcpy_witness :
    (overlapping_arrays.BlocksWithin 3 ∧ ¬ overlapping_arrays.DstDisjoint 3
      ∧ overlapping_arrays.blockSize 2 = 0) ∧
    ∃ a1, blocked_reorder_naive 4 overlapping_arrays 3 = some (.ok a1) ∧
      blocked_reorder_memcpy overlapping_arrays 3 = .ok a1 :=
  ⟨by decide, C15_naive_equals_memcpy overlapping_arrays 3 4 (by decide) (by decide)⟩

/-! ## Claim on the matrix-vector multiply -/

theorem load_eq_ok (xs : List F32) (i : Nat) (h : i < xs.length) :
    load xs i = .ok (xs.getD i 0) := by
  simp [load, List.getD, List.getElem?_eq_getElem h]

theorem store_eq_ok (xs : List F32) (i : Nat) (f : F32) (h : i < xs.length) :
    store xs i f = .ok (xs.set i f) := by
  simp [store, h]

theorem assign_and_add_eq (i : Nat) (s : MatVec) (hv : 0 < s.v.length)
    (hr : 0 < s.result.length) (hm : matrix_index i 0 < s.m.length) :
    assign_and_add i s
      = .ok { s with
          m := s.m.set (matrix_index i 0) (s.v.getD 0 0),
          result := s.result.set 0 (f32_add (s.result.getD 0 0) (s.v.getD 0 0)) } := by
  simp only [assign_and_add, load_eq_ok _ _ hv, load_eq_ok _ _ hr, store_eq_ok _ _ _ hm,
    store_eq_ok _ _ _ hr, bind, Except.bind, pure, Except.pure]

theorem add_sum_eq (i j : Nat) (s : MatVec) (hv : j < s.v.length)
    (hr : j < s.result.length) (hm : matrix_index i j < s.m.length) :
    add_sum i j s
      = .ok { s with
          result := s.result.set j
            (f32_add (s.result.getD j 0)
              (f32_add (s.m.getD (matrix_index i j) 0) (s.v.getD j 0))) } := by
  simp only [add_sum, load_eq_ok _ _ hv, load_eq_ok _ _ hr, load_eq_ok _ _ hm,
    store_eq_ok _ _ _ hr, bind, Except.bind, pure, Except.pure]

/-- One iteration stores `v[0]` at `m[i][0]` and leaves the rest of the matrix
and the vector alone. -/
theorem multiply_step_eq (i : Nat) (s : MatVec) (hv : s.v.length = 4)
    (hr : s.result.length = 4) (hm : matrix_index i 3 < s.m.length) :
    ∃ s1, multiply_step i s = .ok s1 ∧
      s1.m = s.m.set (matrix_index i 0) (s.v.getD 0 0) ∧ s1.v = s.v ∧
      s1.result.length = 4 := by
  have hm0 : matrix_index i 0 < s.m.length := by
    simp only [matrix_index] at hm ⊢; omega
  have hm1 : matrix_index i 1 < s.m.length := by
    simp only [matrix_index] at hm ⊢; omega
  have hm2 : matrix_index i 2 < s.m.length := by
    simp only [matrix_index] at hm ⊢; omega
  simp only [multiply_step, bind, Except.bind]
  rw [assign_and_add_eq i s (by omega) (by omega) hm0]
  simp only
  rw [add_sum_eq i 1 _ (by simp only; omega) (by simp only [List.length_set]; omega)
    (by simp only [List.length_set]; exact hm1)]
  simp only
  rw [add_sum_eq i 2 _ (by simp only; omega) (by simp only [List.length_set]; omega)
    (by simp only [List.length_set]; exact hm2)]
  simp only
  rw [add_sum_eq i 3 _ (by simp only; omega) (by simp only [List.length_set]; omega)
    (by simp only [List.length_set]; exact hm)]
  exact ⟨_, rfl, rfl, rfl, by simp only [List.length_set]; exact hr⟩

/-- The state `matrix_vector_multiply` ends in, on a matrix of at least ten
elements and a vector of four. -/
theorem matrix_vector_multiply_eq (m v : List F32) (hm : 10 ≤ m.length)
    (hv : v.length = 4) :
    ∃ s, matrix_vector_multiply m v = .ok s ∧
      s.m = ((m.set 0 (v.getD 0 0)).set 3 (v.getD 0 0)).set 6 (v.getD 0 0) ∧ s.v = v := by
  obtain ⟨s1, h1, hm1, hv1, hr1⟩ := multiply_step_eq 0
    { m := m, v := v, result := [F32_ZERO, F32_ZERO, F32_ZERO, F32_ZERO] } hv rfl
    (by simp only [matrix_index]; omega)
  obtain ⟨s2, h2, hm2, hv2, hr2⟩ := multiply_step_eq 1 s1 (by rw [hv1]; exact hv) hr1
    (by rw [hm1]; simp only [matrix_index, List.length_set]; omega)
  obtain ⟨s3, h3, hm3, hv3, hr3⟩ := multiply_step_eq 2 s2 (by rw [hv2, hv1]; exact hv) hr2
    (by rw [hm2, hm1]; simp only [matrix_index, List.length_set]; omega)
  refine ⟨s3, ?_, ?_, by rw [hv3, hv2, hv1]⟩
  · simp only [matrix_vector_multiply, multiply_loop, h1, h2, h3]
  · rw [hm3, hm2, hm1, hv2, hv1]
    rfl

/-- C16: `matrix_vector_multiply` changes its matrix argument. With the matrix
as its 16-element flat array (`m[i][j]` at `3*i + j`) and `v` a separate
four-element array, the call ends with the flat elements 0, 3 and 6 equal to
`v[0]`, the other 13 elements as they were, and `v` as it was. -/
theorem C16_matrix_is_overwritten (m v : List F32) (hm : m.length = 16) (hv : v.length = 4) :
    ∃ s, matrix_vector_multiply m v = .ok s ∧
      s.m.length = 16 ∧
      s.m[0]? = v[0]? ∧ s.m[3]? = v[0]? ∧ s.m[6]? = v[0]? ∧
      (∀ k, k ≠ 0 → k ≠ 3 → k ≠ 6 → s.m[k]? = m[k]?) ∧
      s.v = v ∧
      ((m[0]? ≠ v[0]? ∨ m[3]? ≠ v[0]? ∨ m[6]? ≠ v[0]?) → s.m ≠ m) := by
  obtain ⟨s, hrun, hsm, hsv⟩ := matrix_vector_multiply_eq m v (by omega) hv
  have hv0 : v[0]? = some (v.getD 0 0) := getElem?_eq_getD v 0 0 (by omega)
  have h0 : s.m[0]? = v[0]? := by
    rw [hsm, hv0, List.getElem?_set_ne (by decide), List.getElem?_set_ne (by decide),
      List.getElem?_set_self (by omega)]
  have h3 : s.m[3]? = v[0]? := by
    rw [hsm, hv0, List.getElem?_set_ne (by decide),
      List.getElem?_set_self (by rw [List.length_set]; omega)]
  have h6 : s.m[6]? = v[0]? := by
    rw [hsm, hv0, List.getElem?_set_self (by rw [List.length_set, List.length_set]; omega)]
  refine ⟨s, hrun, ?_, h0, h3, h6, ?_, hsv, ?_⟩
  · rw [hsm, List.length_set, List.length_set, List.length_set, hm]
  · intro k k0 k3 k6
    rw [hsm, List.getElem?_set_ne (Ne.symm k6), List.getElem?_set_ne (Ne.symm k3),
      List.getElem?_set_ne (Ne.symm k0)]
  · intro h heq
    rw [heq] at h0 h3 h6
    rcases h with h | h | h
    · exact h h0
    · exact h h3
    · exact h h6

/-- C16 on the matrix `0.0f .. 15.0f` and the vector `(1.0f, 2.0f, 3.0f, 4.0f)`. -/
theorem C16_matrix_is_overwritten_witness :
    (example_matrix.length = 16 ∧ example_vector.length = 4) ∧
    ∃ s, matrix_vector_multiply example_matrix example_vector = .ok s ∧
      s.m.length = 16 ∧
      s.m[0]? = example_vector[0]? ∧ s.m[3]? = example_vector[0]? ∧
      s.m[6]? = example_vector[0]? ∧
      (∀ k, k ≠ 0 → k ≠ 3 → k ≠ 6 → s.m[k]? = example_matrix[k]?) ∧
      s.v = example_vector ∧
      ((example_matrix[0]? ≠ example_vector[0]? ∨ example_matrix[3]? ≠ example_vector[0]?
        ∨ example_matrix[6]? ≠ example_vector[0]?) → s.m ≠ example_matrix) :=
  ⟨by decide, C16_matrix_is_overwritten example_matrix example_vector (by decide) (by decide)⟩

end StrictAliasing
